import Mathlib

/-!
Verification development for the artemis_ast script tool (src/main.rs).

The development shallow-embeds the tokenizer, recursive-descent parser,
serializer and the three tree algorithms (extract / prune / merge) of the
source, and proves the testable properties of the specification against them.

Modelling conventions:
* Strings are `List Char`.
* Rust `HashMap<String, Value>` is modelled as an association list
  (`List (Str × Value)`) whose iteration order is the insertion order; the
  Rust map does not guarantee an order, so the model fixes one determinate
  order, which is what the spec's "deterministic traversal" requires.
* Rust `f64` literals are modelled exactly: a parsed decimal literal is kept
  as a canonical pair `(m : Int, e : Nat)` denoting `m / 10^e` with
  `e = 0 ∨ m % 10 ≠ 0`.  On the decimal literals this program reads and
  writes, `f64` parsing and shortest-form printing agree with this exact
  model; `f64` rounding itself is not modelled.
* Rust `i64` is `Int` together with the explicit range check that
  `str::parse::<i64>` performs; an out-of-range literal makes the reference
  panic (`unwrap`), modelled by a dedicated error value.
* Character classes (`is_whitespace`, `is_numeric`, `is_alphanumeric`) are
  modelled by their ASCII restrictions `Char.isWhitespace`, `Char.isDigit`,
  `Char.isAlphanum`; all concrete inputs considered here are ASCII.
* Rust panics (out-of-bounds slice indexing in the parser, `unwrap` of a
  failed numeric parse in the tokenizer) are modelled as explicit error
  values distinct from the ordinary parse errors.
* File input/output and YAML encoding are out-of-scope collaborators; the
  extract operation is modelled as returning the ordered string list that
  `extract_secnario_toyaml` serializes to YAML.
-/

namespace ArtemisAst

abbrev Str := List Char

/-- Value: the tagged-union tree type of src/main.rs (`enum Value`). -/
inductive Value where
  | integer (i : Int)
  | float (m : Int) (e : Nat)
  | str (s : Str)
  | array (xs : List Value)
  | dictionary (d : List (Str × Value))

/-- Document: the parse result, the top-level map of the source. -/
abbrev Doc := List (Str × Value)

-- Boolean structural equality on `Value` (used to build decidable equality).
mutual
def veq : Value → Value → Bool
  | .integer a, .integer b => a == b
  | .float m e, .float m' e' => m == m' && e == e'
  | .str s, .str t => s == t
  | .array xs, .array ys => veqL xs ys
  | .dictionary d, .dictionary d' => veqE d d'
  | _, _ => false

def veqL : List Value → List Value → Bool
  | [], [] => true
  | x :: xs, y :: ys => veq x y && veqL xs ys
  | _, _ => false

def veqE : List (Str × Value) → List (Str × Value) → Bool
  | [], [] => true
  | (k, x) :: xs, (k', y) :: ys => k == k' && veq x y && veqE xs ys
  | _, _ => false
end

mutual
def vdec : (a b : Value) → Decidable (a = b)
  | .integer a, .integer b =>
      match decEq a b with
      | isTrue h => isTrue (by rw [h])
      | isFalse h => isFalse (fun c => h (Value.integer.inj c))
  | .float m e, .float m' e' =>
      match decEq m m', decEq e e' with
      | isTrue h1, isTrue h2 => isTrue (by rw [h1, h2])
      | isFalse h1, _ => isFalse (fun c => h1 (Value.float.inj c).1)
      | _, isFalse h2 => isFalse (fun c => h2 (Value.float.inj c).2)
  | .str s, .str t =>
      match decEq s t with
      | isTrue h => isTrue (by rw [h])
      | isFalse h => isFalse (fun c => h (Value.str.inj c))
  | .array xs, .array ys =>
      match vdecL xs ys with
      | isTrue h => isTrue (by rw [h])
      | isFalse h => isFalse (fun c => h (Value.array.inj c))
  | .dictionary d, .dictionary d' =>
      match vdecE d d' with
      | isTrue h => isTrue (by rw [h])
      | isFalse h => isFalse (fun c => h (Value.dictionary.inj c))
  | .integer _, .float _ _ => isFalse (fun c => Value.noConfusion c)
  | .integer _, .str _ => isFalse (fun c => Value.noConfusion c)
  | .integer _, .array _ => isFalse (fun c => Value.noConfusion c)
  | .integer _, .dictionary _ => isFalse (fun c => Value.noConfusion c)
  | .float _ _, .integer _ => isFalse (fun c => Value.noConfusion c)
  | .float _ _, .str _ => isFalse (fun c => Value.noConfusion c)
  | .float _ _, .array _ => isFalse (fun c => Value.noConfusion c)
  | .float _ _, .dictionary _ => isFalse (fun c => Value.noConfusion c)
  | .str _, .integer _ => isFalse (fun c => Value.noConfusion c)
  | .str _, .float _ _ => isFalse (fun c => Value.noConfusion c)
  | .str _, .array _ => isFalse (fun c => Value.noConfusion c)
  | .str _, .dictionary _ => isFalse (fun c => Value.noConfusion c)
  | .array _, .integer _ => isFalse (fun c => Value.noConfusion c)
  | .array _, .float _ _ => isFalse (fun c => Value.noConfusion c)
  | .array _, .str _ => isFalse (fun c => Value.noConfusion c)
  | .array _, .dictionary _ => isFalse (fun c => Value.noConfusion c)
  | .dictionary _, .integer _ => isFalse (fun c => Value.noConfusion c)
  | .dictionary _, .float _ _ => isFalse (fun c => Value.noConfusion c)
  | .dictionary _, .str _ => isFalse (fun c => Value.noConfusion c)
  | .dictionary _, .array _ => isFalse (fun c => Value.noConfusion c)

def vdecL : (xs ys : List Value) → Decidable (xs = ys)
  | [], [] => isTrue rfl
  | [], _ :: _ => isFalse (fun c => List.noConfusion c)
  | _ :: _, [] => isFalse (fun c => List.noConfusion c)
  | x :: xs, y :: ys =>
      match vdec x y, vdecL xs ys with
      | isTrue h1, isTrue h2 => isTrue (by rw [h1, h2])
      | isFalse h1, _ => isFalse (fun c => h1 (List.cons.inj c).1)
      | _, isFalse h2 => isFalse (fun c => h2 (List.cons.inj c).2)

def vdecE : (xs ys : List (Str × Value)) → Decidable (xs = ys)
  | [], [] => isTrue rfl
  | [], _ :: _ => isFalse (fun c => List.noConfusion c)
  | _ :: _, [] => isFalse (fun c => List.noConfusion c)
  | (k, x) :: xs, (k', y) :: ys =>
      match decEq k k', vdec x y, vdecE xs ys with
      | isTrue h1, isTrue h2, isTrue h3 => isTrue (by rw [h1, h2, h3])
      | isFalse h1, _, _ =>
          isFalse (fun c => h1 (congrArg Prod.fst (List.cons.inj c).1))
      | _, isFalse h2, _ =>
          isFalse (fun c => h2 (congrArg Prod.snd (List.cons.inj c).1))
      | _, _, isFalse h3 => isFalse (fun c => h3 (List.cons.inj c).2)
end

instance : DecidableEq Value := vdec

/-- Value helper of the source: `as_string`. -/
def asString : Value → Option Str
  | .str s => some s
  | _ => none

/-- Value helper of the source: `is_dictionary`. -/
def isDictionary : Value → Bool
  | .dictionary _ => true
  | _ => false

/-- Lookup in the association-list model of `HashMap::get`. -/
def getKey : List (Str × Value) → Str → Option Value
  | [], _ => none
  | (k', v) :: d, k => if k' = k then some v else getKey d k

/-- Replacement of the value stored under an existing key, the model of
writing through `HashMap::get_mut`. -/
def setKey : List (Str × Value) → Str → Value → List (Str × Value)
  | [], _, _ => []
  | (k', v') :: d, k, v => if k' = k then (k, v) :: d else (k', v') :: setKey d k v

/-- Model of `HashMap::insert`: overwrite an existing key, else append. -/
def insertKey (d : List (Str × Value)) (k : Str) (v : Value) : List (Str × Value) :=
  if (getKey d k).isSome then setKey d k v else d ++ [(k, v)]

/-- Boolean test that `p` occurs at the start of `s` (Rust `str::starts_with`). -/
def strStarts : Str → Str → Bool
  | [], _ => true
  | _ :: _, [] => false
  | a :: p, b :: s => a == b && strStarts p s

def astKey : Str := "ast".data
def textKey : Str := "text".data
def jaKey : Str := "ja".data
def linknextKey : Str := "linknext".data
def lineKey : Str := "line".data
def blockKeyStart : Str := "block_".data

/-! ## Tokenizer -/

/-- Token: the lexical tokens of the source (`enum Token`); the float
literal carries the exact decimal value `m / 10^e` in canonical form. -/
inductive Token where
  | equal
  | openBrace
  | closeBrace
  | comma
  | identifier (s : Str)
  | stringLiteral (s : Str)
  | integerLiteral (i : Int)
  | floatLiteral (m : Int) (e : Nat)
  deriving DecidableEq

/-- LexError: failure modes of `tokenize`.  `numParse` models the panic of
`number.parse().unwrap()` on a malformed or out-of-range numeric literal;
`outOfFuel` is an artifact of the fuel encoding and is unreachable for the
fuel used by `tokenize`. -/
inductive LexError where
  | unknownEscape
  | incompleteEscape
  | unexpectedCharacter
  | numParse
  | outOfFuel
  deriving DecidableEq

/-- Escape table of the tokenizer's string-literal loop. -/
def escChar : Char → Option Char
  | 'n' => some '\n'
  | 't' => some '\t'
  | '"' => some '"'
  | '\\' => some '\\'
  | _ => none

/-- String-literal body scanner: the inner `while` loop of `tokenize` after an
opening quote.  Note that end of input without a closing quote is NOT an
error in the source: the loop simply ends and the partial literal is pushed. -/
def lexString : List Char → Except LexError (Str × List Char)
  | [] => .ok ([], [])
  | c :: rest =>
      if c = '\\' then
        match rest with
        | [] => .error .incompleteEscape
        | e :: rest' =>
            match escChar e with
            | some c' => (lexString rest').map (fun p => (c' :: p.1, p.2))
            | none => .error .unknownEscape
      else if c = '"' then .ok ([], rest)
      else (lexString rest).map (fun p => (c :: p.1, p.2))

/-- Numeric-literal continuation scanner: consumes digits and dots. -/
def collectNum : List Char → Str × List Char
  | [] => ([], [])
  | c :: cs =>
      if c = '.' ∨ c.isDigit then
        let p := collectNum cs
        (c :: p.1, p.2)
      else ([], c :: cs)

/-- Identifier continuation scanner: consumes alphanumerics and underscores. -/
def collectIdent : List Char → Str × List Char
  | [] => ([], [])
  | c :: cs =>
      if c.isAlphanum ∨ c = '_' then
        let p := collectIdent cs
        (c :: p.1, p.2)
      else ([], c :: cs)

/-- Value of a digit string, most significant first. -/
def digitsVal (ds : Str) : Nat :=
  ds.foldl (fun a c => 10 * a + (c.toNat - 48)) 0

/-- Split a digit string at the first dot; the second component is everything
after that dot (and is empty when there is no dot). -/
def splitDot : Str → Str × Str
  | [] => ([], [])
  | c :: cs =>
      if c = '.' then ([], cs)
      else
        let p := splitDot cs
        (c :: p.1, p.2)

/-- Canonicalize an exact decimal `m / 10^(e)`: strip factors of ten, the
fuel (first argument) bounds the number of strips. -/
def canonFloat : Nat → Int → Nat → Int × Nat
  | _, m, 0 => (m, 0)
  | 0, m, e => (m, e)
  | f + 1, m, e + 1 =>
      if m % 10 = 0 then canonFloat f (m / 10) e else (m, e + 1)

/-- Model of `number.parse::<f64>().unwrap()` on the digit-and-dot strings the
tokenizer collects: a second dot makes the parse fail (a panic in the
source); otherwise the exact decimal value is kept in canonical form. -/
def floatToken (sign : Int) (digits : Str) : Except LexError Token :=
  let p := splitDot digits
  if p.2.contains '.' then .error .numParse
  else
    let e0 := p.2.length
    let m0 := sign * (digitsVal p.1 * 10 ^ e0 + digitsVal p.2)
    let c := canonFloat e0 m0 e0
    .ok (.floatLiteral c.1 c.2)

/-- Model of `number.parse::<i64>().unwrap()`: out-of-range values make the
source panic. -/
def intToken (sign : Int) (digits : Str) : Except LexError Token :=
  let v : Int := sign * digitsVal digits
  if v < -(2 ^ 63) ∨ 2 ^ 63 - 1 < v then .error .numParse
  else .ok (.integerLiteral v)

/-- Dispatch on the collected numeric literal: the continuation containing a
dot marks it float (the first character is a digit or `-`, never a dot). -/
def numToken (first : Char) (ds : Str) : Except LexError Token :=
  let sign : Int := if first = '-' then -1 else 1
  let digits : Str := if first = '-' then ds else first :: ds
  if ds.contains '.' then floatToken sign digits else intToken sign digits

/-- Head-of-list digit test used by the tokenizer's `-` lookahead. -/
def headIsDigit : List Char → Bool
  | [] => false
  | c :: _ => c.isDigit

/-- Tokenizer main loop (`tokenize` of the source), written with explicit
fuel so that it is structurally recursive; every iteration consumes at least
one character, so fuel equal to the input length (supplied by `tokenize`)
never runs out. -/
def tokenizeF : Nat → List Char → Except LexError (List Token)
  | _, [] => .ok []
  | 0, _ :: _ => .error .outOfFuel
  | f + 1, c :: cs =>
      if c = '=' then (tokenizeF f cs).map (Token.equal :: ·)
      else if c = '{' then (tokenizeF f cs).map (Token.openBrace :: ·)
      else if c = '}' then (tokenizeF f cs).map (Token.closeBrace :: ·)
      else if c = ',' then (tokenizeF f cs).map (Token.comma :: ·)
      else if c = '"' then
        match lexString cs with
        | .error e => .error e
        | .ok (s, rest) => (tokenizeF f rest).map (Token.stringLiteral s :: ·)
      else if c.isWhitespace then tokenizeF f cs
      else if c.isDigit ∨ (c = '-' ∧ headIsDigit cs) then
        match numToken c (collectNum cs).1 with
        | .error e => .error e
        | .ok t => (tokenizeF f (collectNum cs).2).map (t :: ·)
      else if c.isAlphanum ∨ c = '_' then
        (tokenizeF f (collectIdent cs).2).map (Token.identifier (c :: (collectIdent cs).1) :: ·)
      else .error .unexpectedCharacter

/-- Tokenize the input (model of `tokenize` in the source). -/
def tokenize (cs : List Char) : Except LexError (List Token) :=
  tokenizeF cs.length cs

/-! ## Parser -/

/-- ParseError: failure modes of the parser.  `indexPanic` models the panics
of the unchecked slice indexing `tokens[index]` past the end of the token
stream; `outOfFuel` is an artifact of the fuel encoding, unreachable for the
fuel `parseTokens` supplies (the recursion depth is bounded by twice the
token count). -/
inductive ParseError where
  | expectedEqualAfterIdentifier
  | unexpectedTokenAtTopLevel
  | unexpectedToken
  | indexPanic
  | outOfFuel
  deriving DecidableEq

mutual
/-- Model of `parse_value`: one fuel unit per recursive call.  An empty token
list where a token is demanded reproduces the source's unchecked
`tokens[*index]` access, i.e. a panic. -/
def parseValueF : Nat → List Token → Except ParseError (Value × List Token)
  | 0, _ => .error .outOfFuel
  | _ + 1, [] => .error .indexPanic
  | f + 1, .openBrace :: ts => parseArrayF f [] ts
  | _ + 1, .stringLiteral s :: ts => .ok (.str s, ts)
  | _ + 1, .integerLiteral i :: ts => .ok (.integer i, ts)
  | _ + 1, .floatLiteral m e :: ts => .ok (.float m e, ts)
  | f + 1, .identifier s :: ts =>
      match ts with
      | [] => .error .indexPanic
      | .equal :: ts' =>
          (parseValueF f ts').map (fun p => (.dictionary [(s, p.1)], p.2))
      | _ :: _ => .ok (.str s, ts)
  | _ + 1, _ :: _ => .error .unexpectedToken

/-- Model of the `parse_array` loop, after the opening brace has been
consumed; `acc` holds the values pushed so far. -/
def parseArrayF : Nat → List Value → List Token → Except ParseError (Value × List Token)
  | 0, _, _ => .error .outOfFuel
  | _ + 1, _, [] => .error .indexPanic
  | _ + 1, acc, .closeBrace :: ts => .ok (.array acc, ts)
  | f + 1, acc, .comma :: ts => parseArrayF f acc ts
  | f + 1, acc, ts =>
      match parseValueF f ts with
      | .error e => .error e
      | .ok (v, r) => parseArrayF f (acc ++ [v]) r
end

/-- Model of the `parse_tokens` top-level loop. -/
def parseTopF : Nat → Doc → List Token → Except ParseError Doc
  | 0, _, _ => .error .outOfFuel
  | _ + 1, acc, [] => .ok acc
  | f + 1, acc, .identifier s :: ts =>
      match ts with
      | [] => .error .indexPanic
      | .equal :: ts' =>
          match parseValueF f ts' with
          | .error e => .error e
          | .ok (v, r) => parseTopF f (insertKey acc s v) r
      | _ :: _ => .error .expectedEqualAfterIdentifier
  | _ + 1, _, _ :: _ => .error .unexpectedTokenAtTopLevel

/-- Model of `parse_tokens`.  The fuel `2 * length + 1` dominates the
recursion depth: along any call chain at least one token is consumed for
every two fuel units spent. -/
def parseTokens (ts : List Token) : Except ParseError Doc :=
  parseTopF (2 * ts.length + 1) [] ts

/-- ScriptError: either stage of the tokenize-then-parse pipeline failing. -/
inductive ScriptError where
  | lexErr (e : LexError)
  | parseErr (e : ParseError)
  deriving DecidableEq

/-- Tokenize-then-parse pipeline (`parse_ast` of the source minus file I/O). -/
def parseScript (cs : List Char) : Except ScriptError Doc :=
  match tokenize cs with
  | .error e => .error (.lexErr e)
  | .ok ts =>
      match parseTokens ts with
      | .error e => .error (.parseErr e)
      | .ok doc => .ok doc

/-! ## Serializer -/

/-- Character of a single decimal digit. -/
def digitChar (n : Nat) : Char := Char.ofNat (48 + n)

/-- Decimal digits of a natural number, most significant first; the fuel
(first argument) bounds the digit count, `n + 1` always suffices. -/
def natStrF : Nat → Nat → Str
  | 0, _ => []
  | f + 1, n => if n < 10 then [digitChar n] else natStrF f (n / 10) ++ [digitChar (n % 10)]

/-- Decimal rendering of a natural number. -/
def natStr (n : Nat) : Str := natStrF (n + 1) n

/-- Decimal rendering of an integer (Rust `i64::to_string`). -/
def intStr : Int → Str
  | .ofNat n => natStr n
  | .negSucc n => '-' :: natStr (n + 1)

/-- Fraction digits: `n` rendered left-padded with zeros to width `e`. -/
def padDigits (e : Nat) (n : Nat) : Str :=
  List.replicate (e - (natStr n).length) '0' ++ natStr n

/-- Shortest decimal rendering of the exact float `m / 10^e` for `e ≥ 1`
(Rust `f64::to_string` on the decimals this program handles). -/
def floatStr (m : Int) (e : Nat) : Str :=
  (if m < 0 then ['-'] else []) ++
    natStr (m.natAbs / 10 ^ e) ++ '.' :: padDigits e (m.natAbs % 10 ^ e)

/-- Indentation: `indent_level` tabs. -/
def indentStr (lvl : Nat) : Str := List.replicate lvl '\t'

/-- Join rendered pieces with a separator (Rust `Vec::join`). -/
def joinSep : List Str → Str → Str
  | [], _ => []
  | [x], _ => x
  | x :: xs, sep => x ++ sep ++ joinSep xs sep

-- Model of `value_to_script`.  The Rust function returns `Result` but no
-- code path produces an error, so the model is total.  The float branch
-- with zero fractional part (`f.fract() == 0.0`, i.e. `e = 0` in canonical
-- form) prints with one forced decimal (`{:.1}`).
mutual
def valueToScript : Value → Nat → Str
  | .str s, _ => '"' :: s ++ ['"']
  | .float m e, _ => if e = 0 then intStr m ++ ".0".data else floatStr m e
  | .integer i, _ => intStr i
  | .array a, lvl =>
      '{' :: '\n' :: indentStr (lvl + 1) ++
        joinSep (renderElems a (lvl + 1)) (',' :: '\n' :: indentStr (lvl + 1)) ++
        '\n' :: indentStr lvl ++ ['}']
  | .dictionary d, lvl =>
      '\n' :: indentStr (lvl + 1) ++
        joinSep (renderEntries d (lvl + 1)) (',' :: '\n' :: indentStr (lvl + 1)) ++
        '\n' :: indentStr lvl

def renderElems : List Value → Nat → List Str
  | [], _ => []
  | v :: vs, lvl => valueToScript v lvl :: renderElems vs lvl

def renderEntries : List (Str × Value) → Nat → List Str
  | [], _ => []
  | (k, v) :: d, lvl => (k ++ '=' :: valueToScript v lvl) :: renderEntries d lvl
end

/-- Model of `reconstruct_script`: each top-level pair on its own line, in
the map's iteration order (insertion order in this model). -/
def reconstructScript : Doc → Str
  | [] => []
  | (k, v) :: d => k ++ ' ' :: '=' :: ' ' :: (valueToScript v 0 ++ '\n' :: reconstructScript d)

/-! ## Tree algorithms -/

/-- TreeError: failure modes of extract and merge, named after the anyhow
messages of the source: "ast key not found", "ast is not a dictionary"
(the message the source reports when `ast` is not an array), "block is not
a dict", "Ran out of strings in secnario.", "Not all strings in secnario
were used.". -/
inductive TreeError where
  | astKeyNotFound
  | astNotArray
  | blockNotDict
  | ranOutOfStrings
  | notAllStringsUsed
  deriving DecidableEq

/-- Innermost extract step: the strings directly inside one `ja` sub-array. -/
def subjaTexts : Value → List Str
  | .array l => l.filterMap asString
  | _ => []

/-- Strings of one text block: its `ja` array's sub-arrays, in order. -/
def textBlockTexts : Value → List Str
  | .dictionary d =>
      match getKey d jaKey with
      | some (.array ja) => ja.flatMap subjaTexts
      | _ => []
  | _ => []

/-- Strings of one item: its `text` array's text blocks, in order. -/
def itemTexts : Value → List Str
  | .dictionary d =>
      match getKey d textKey with
      | some (.array ta) => ta.flatMap textBlockTexts
      | _ => []
  | _ => []

/-- Strings below one block-wrapper entry: only keys beginning `block_`
whose value is an array of items contribute. -/
def blockEntryTexts (p : Str × Value) : List Str :=
  if strStarts blockKeyStart p.1 then
    match p.2 with
    | .array items => items.flatMap itemTexts
    | _ => []
  else []

/-- Per-block loop of extract: any non-dictionary element of the `ast`
array aborts the extraction with "block is not a dict". -/
def extractBlocks : List Value → Except TreeError (List Str)
  | [] => .ok []
  | b :: rest =>
      match b with
      | .dictionary blocks => (extractBlocks rest).map (fun tl => blocks.flatMap blockEntryTexts ++ tl)
      | _ => .error .blockNotDict

/-- Model of `extract_secnario_toyaml` up to (collaborator) YAML encoding:
the ordered list of all extracted strings. -/
def extractSecnario (doc : Doc) : Except TreeError (List Str) :=
  match getKey doc astKey with
  | none => .error .astKeyNotFound
  | some v =>
      match v with
      | .array bs => extractBlocks bs
      | _ => .error .astNotArray

/-- Model of `replace_text_in_ja`: a string leaf takes the next unconsumed
input string; anything else is untouched.  The iterator cursor is threaded
explicitly as the remaining input list. -/
def replaceTextInJa : Value → List Str → Except TreeError (Value × List Str)
  | .str _, [] => .error .ranOutOfStrings
  | .str _, s :: rest => .ok (.str s, rest)
  | v, cur => .ok (v, cur)

/-- Cursor-threaded map of `replace_text_in_ja` over a `ja` array. -/
def mapJa : List Value → List Str → Except TreeError (List Value × List Str)
  | [], cur => .ok ([], cur)
  | v :: vs, cur =>
      match replaceTextInJa v cur with
      | .error e => .error e
      | .ok (v', cur') =>
          match mapJa vs cur' with
          | .error e => .error e
          | .ok (vs', cur'') => .ok (v' :: vs', cur'')

/-- One text block inside `replace_texts_in_block`: replace inside its `ja`
array if it is a dictionary having one. -/
def replaceTextBlock : Value → List Str → Except TreeError (Value × List Str)
  | .dictionary d, cur =>
      (match getKey d jaKey with
       | some (.array ja) =>
           match mapJa ja cur with
           | .error e => .error e
           | .ok (ja', cur') => .ok (.dictionary (setKey d jaKey (.array ja')), cur')
       | _ => .ok (.dictionary d, cur))
  | v, cur => .ok (v, cur)

/-- Cursor-threaded map of `replaceTextBlock` over a `text` array. -/
def mapTextBlocks : List Value → List Str → Except TreeError (List Value × List Str)
  | [], cur => .ok ([], cur)
  | v :: vs, cur =>
      match replaceTextBlock v cur with
      | .error e => .error e
      | .ok (v', cur') =>
          match mapTextBlocks vs cur' with
          | .error e => .error e
          | .ok (vs', cur'') => .ok (v' :: vs', cur'')

/-- Model of `replace_texts_in_block`: operates on the `text` array of a
dictionary value. -/
def replaceTextsInBlock : Value → List Str → Except TreeError (Value × List Str)
  | .dictionary bd, cur =>
      (match getKey bd textKey with
       | some (.array ta) =>
           match mapTextBlocks ta cur with
           | .error e => .error e
           | .ok (ta', cur') => .ok (.dictionary (setKey bd textKey (.array ta')), cur')
       | _ => .ok (.dictionary bd, cur))
  | v, cur => .ok (v, cur)

/-- One entry of a block-wrapper dictionary in merge: `replace_secnario`
descends only when the entry's value `is_dictionary()` (no `block_` prefix
check here, unlike extract). -/
def replaceBlockEntry : (Str × Value) → List Str → Except TreeError ((Str × Value) × List Str)
  | (k, v), cur =>
      if isDictionary v then
        match replaceTextsInBlock v cur with
        | .error e => .error e
        | .ok (v', cur') => .ok ((k, v'), cur')
      else .ok ((k, v), cur)

/-- Cursor-threaded map over the entries of one block wrapper. -/
def mapBlockEntries : List (Str × Value) → List Str → Except TreeError (List (Str × Value) × List Str)
  | [], cur => .ok ([], cur)
  | p :: ps, cur =>
      match replaceBlockEntry p cur with
      | .error e => .error e
      | .ok (p', cur') =>
          match mapBlockEntries ps cur' with
          | .error e => .error e
          | .ok (ps', cur'') => .ok (p' :: ps', cur'')

/-- One element of the `ast` array in merge: only dictionaries are entered. -/
def replaceBlockValue : Value → List Str → Except TreeError (Value × List Str)
  | .dictionary blocks, cur =>
      (match mapBlockEntries blocks cur with
       | .error e => .error e
       | .ok (blocks', cur') => .ok (.dictionary blocks', cur'))
  | v, cur => .ok (v, cur)

/-- Cursor-threaded map over the `ast` array. -/
def mapBlockValues : List Value → List Str → Except TreeError (List Value × List Str)
  | [], cur => .ok ([], cur)
  | v :: vs, cur =>
      match replaceBlockValue v cur with
      | .error e => .error e
      | .ok (v', cur') =>
          match mapBlockValues vs cur' with
          | .error e => .error e
          | .ok (vs', cur'') => .ok (v' :: vs', cur'')

/-- Model of `replace_secnario`: walk the `ast` array threading the input
cursor (silently doing nothing when `ast` is absent or not an array), then
fail with "Not all strings in secnario were used." if input remains. -/
def replaceSecnario (doc : Doc) (secnario : List Str) : Except TreeError Doc :=
  match getKey doc astKey with
  | some (.array bs) =>
      (match mapBlockValues bs secnario with
       | .error e => .error e
       | .ok (bs', rest) =>
           if rest.isEmpty then .ok (setKey doc astKey (.array bs'))
           else .error .notAllStringsUsed)
  | _ => if secnario.isEmpty then .ok doc else .error .notAllStringsUsed

/-! ## Prune -/

/-- Item-level loop of `prune_ast`: a dictionary item retains only its
`linknext` and `line` keys; any other item is removed. -/
def pruneItems : List Value → List Value
  | [] => []
  | .dictionary d :: rest =>
      .dictionary (d.filter (fun p => p.1 == linknextKey || p.1 == lineKey)) :: pruneItems rest
  | _ :: rest => pruneItems rest

/-- One entry of a block wrapper under prune: array values have their items
pruned, all other values are untouched. -/
def pruneEntry : Str × Value → Str × Value
  | (k, .array items) => (k, .array (pruneItems items))
  | p => p

/-- One element of the `ast` array under prune. -/
def pruneBlockValue : Value → Value
  | .dictionary blocks => .dictionary (blocks.map pruneEntry)
  | v => v

/-- Model of `prune_ast`: total, and a no-op when `ast` is absent or not an
array. -/
def pruneAst (doc : Doc) : Doc :=
  match getKey doc astKey with
  | some (.array bs) => setKey doc astKey (.array (bs.map pruneBlockValue))
  | _ => doc

/-! ## Concrete documents used by several properties -/

/-- Example input of the specification (§8): one block with one extractable
string, one inert array item and a `line` entry. -/
def exampleInput : List Char :=
  ("astver = 2.0\nast = \x7bblock_00000 = \x7b\x7b\"x\"\x7d, text = \x7bja = \x7b\x7b\"hello\"\x7d\x7d\x7d, line = 1\x7d\x7d\n").data

/-- The document the parser produces from `exampleInput`. -/
def exampleDoc : Doc :=
  [("astver".data, .float 2 0),
   ("ast".data, .array [.dictionary [("block_00000".data, .array [
      .array [.str "x".data],
      .dictionary [("text".data, .array [.dictionary [("ja".data, .array [.array [.str "hello".data]])]])],
      .dictionary [("line".data, .integer 1)]])]])]

/-- The result of pruning `exampleDoc`: the array item is removed, the
`text` item is reduced to an empty dictionary that remains in place, and the
`line` item survives. -/
def examplePruned : Doc :=
  [("astver".data, .float 2 0),
   ("ast".data, .array [.dictionary [("block_00000".data, .array [
      .dictionary [],
      .dictionary [("line".data, .integer 1)]])]])]

/-- A one-pair document whose string value is a single double quote; the
serializer does not re-escape it, which breaks the round trip. -/
def quoteDoc : Doc := [("a".data, .str ['"'])]

/-! ## Round-trip specification layer

Token images, cleanliness and well-formedness predicates used to state and
prove the parse/serialize round trip. -/

/-- Shape of strings the tokenizer emits as `Identifier` tokens: nonempty,
starting with a non-digit alphanumeric or underscore, continuing over
alphanumerics and underscores. -/
def identShaped : Str → Bool
  | [] => false
  | c :: cs => ((c.isAlphanum && !c.isDigit) || c == '_') &&
      cs.all (fun x => x.isAlphanum || x == '_')

/-- A string that the serializer can write inside quotes verbatim and the
tokenizer reads back unchanged: no double quote and no backslash.  (The
serializer of the source performs no re-escaping.) -/
def cleanStr (s : Str) : Bool := s.all (fun c => !(c == '"' || c == '\\'))

-- Cleanliness: every string leaf is `cleanStr`.
mutual
def cleanValue : Value → Bool
  | .integer _ => true
  | .float _ _ => true
  | .str s => cleanStr s
  | .array l => cleanList l
  | .dictionary d => cleanEntries d

def cleanList : List Value → Bool
  | [] => true
  | v :: vs => cleanValue v && cleanList vs

def cleanEntries : List (Str × Value) → Bool
  | [] => true
  | (_, v) :: d => cleanValue v && cleanEntries d
end

/-- Cleanliness of a whole document: every string leaf of every top-level
value contains neither `"` nor `\`. -/
def cleanDoc (doc : Doc) : Bool := cleanEntries doc

-- Well-formedness invariants every parser-produced value enjoys: integer
-- literals lie in the i64 range, float literals are canonical decimals,
-- nested dictionaries are single-entry with identifier-shaped keys.
mutual
def wfValue : Value → Prop
  | .integer i => -(2 ^ 63) ≤ i ∧ i ≤ 2 ^ 63 - 1
  | .float m e => e = 0 ∨ ¬(m % 10 = 0)
  | .str _ => True
  | .array l => wfList l
  | .dictionary d => wfEntry d

def wfList : List Value → Prop
  | [] => True
  | v :: vs => wfValue v ∧ wfList vs

def wfEntry : List (Str × Value) → Prop
  | [(k, v)] => identShaped k = true ∧ wfValue v
  | _ => False
end

/-- Well-formedness of the top-level entry list. -/
def wfDocEntries : Doc → Prop
  | [] => True
  | (k, v) :: d => identShaped k = true ∧ wfValue v ∧ wfDocEntries d

/-- Well-formedness of a document: entries are well-formed and the keys are
pairwise distinct (as the `HashMap` model guarantees). -/
def wfDoc (doc : Doc) : Prop := wfDocEntries doc ∧ (doc.map Prod.fst).Nodup

/-- Join token blocks with commas (the token image of `Vec::join`). -/
def joinTok : List (List Token) → List Token
  | [] => []
  | [x] => x
  | x :: xs => x ++ .comma :: joinTok xs

-- The token image of the serializer: the tokens the tokenizer produces on
-- the serialized text of a (well-formed, clean) value.
mutual
def valueTokens : Value → List Token
  | .str s => [.stringLiteral s]
  | .integer i => [.integerLiteral i]
  | .float m e => [.floatLiteral m e]
  | .array l => .openBrace :: joinTok (elemTokens l) ++ [.closeBrace]
  | .dictionary d => joinTok (entryTokens d)

def elemTokens : List Value → List (List Token)
  | [] => []
  | v :: vs => valueTokens v :: elemTokens vs

def entryTokens : List (Str × Value) → List (List Token)
  | [] => []
  | (k, v) :: d => (.identifier k :: .equal :: valueTokens v) :: entryTokens d
end

/-- Token image of a serialized document. -/
def docTokens : Doc → List Token
  | [] => []
  | (k, v) :: d => .identifier k :: .equal :: valueTokens v ++ docTokens d

/-- Character that ends a numeric literal and an identifier: neither a dot,
a digit, an alphanumeric, nor an underscore. -/
def stopChar (c : Char) : Prop :=
  ¬(c = '.' ∨ c.isDigit = true) ∧ ¬(c.isAlphanum = true ∨ c = '_')

/-- Continuation whose head (if any) cannot extend the preceding token. -/
def stopHead : List Char → Prop
  | [] => True
  | c :: _ => stopChar c

/-- The tokenizer consumes `cs` into exactly `toks` and continues with any
continuation whatsoever. -/
def EmitsAll (cs : List Char) (toks : List Token) : Prop :=
  ∀ rest f, cs.length + rest.length ≤ f →
    tokenizeF f (cs ++ rest) = (tokenizeF rest.length rest).map (toks ++ ·)

/-- The tokenizer consumes `cs` into exactly `toks` and continues, provided
the continuation starts with a non-extending character. -/
def EmitsSep (cs : List Char) (toks : List Token) : Prop :=
  ∀ rest f, stopHead rest → cs.length + rest.length ≤ f →
    tokenizeF f (cs ++ rest) = (tokenizeF rest.length rest).map (toks ++ ·)

/-- Well-formedness of a single token: the payload invariants the tokenizer
guarantees (identifier shape, i64 range, canonical decimal). -/
def tokWF : Token → Prop
  | .identifier s => identShaped s = true
  | .integerLiteral i => -(2 ^ 63) ≤ i ∧ i ≤ 2 ^ 63 - 1
  | .floatLiteral m e => e = 0 ∨ ¬(m % 10 = 0)
  | _ => True

/-! # Claims -/

set_option maxRecDepth 8000

section RoundTripLemmas

/-! ## Tokenizer infrastructure -/

theorem tokenizeF_nil (f : Nat) : tokenizeF f [] = .ok [] := by cases f <;> rfl

/-- The string-literal scanner only ever returns a suffix of its input. -/
theorem lexString_suffix_len :
    ∀ (cs : List Char) (s r : Str), lexString cs = .ok (s, r) → r.length ≤ cs.length
  | [], s, r => by
      intro h
      cases h
      exact Nat.le_refl _
  | c :: rest, s, r => by
      intro h
      rw [lexString.eq_def] at h
      dsimp only at h
      split_ifs at h with h1 h2
      · cases rest with
        | nil => cases h
        | cons e rest' =>
            dsimp only at h
            cases he : escChar e with
            | none => rw [he] at h; cases h
            | some c' =>
                rw [he] at h
                cases hrec : lexString rest' with
                | error er => rw [hrec] at h; cases h
                | ok p =>
                    obtain ⟨s', r'⟩ := p
                    rw [hrec] at h
                    cases h
                    have := lexString_suffix_len rest' s' r' hrec
                    simp only [List.length_cons]
                    omega
      · cases h
        simp only [List.length_cons]
        omega
      · cases hrec : lexString rest with
        | error er => rw [hrec] at h; cases h
        | ok p =>
            obtain ⟨s', r'⟩ := p
            rw [hrec] at h
            cases h
            have := lexString_suffix_len rest s' r' hrec
            simp only [List.length_cons]
            omega

/-- The numeric scanner only ever returns a suffix of its input. -/
theorem collectNum_suffix_len : ∀ (cs : List Char), (collectNum cs).2.length ≤ cs.length := by
  intro cs
  induction cs with
  | nil => simp [collectNum]
  | cons c rest ih =>
      rw [collectNum]
      split_ifs with h
      · simpa using Nat.le_succ_of_le ih
      · simp

/-- The identifier scanner only ever returns a suffix of its input. -/
theorem collectIdent_suffix_len : ∀ (cs : List Char), (collectIdent cs).2.length ≤ cs.length := by
  intro cs
  induction cs with
  | nil => simp [collectIdent]
  | cons c rest ih =>
      rw [collectIdent]
      split_ifs with h
      · simpa using Nat.le_succ_of_le ih
      · simp

/-- The tokenizer's result does not depend on the fuel, as long as the fuel
covers the input length (each loop iteration consumes at least one
character). -/
theorem tokenizeF_mono : ∀ (n : Nat) (cs : List Char) (f g : Nat), cs.length ≤ n →
    cs.length ≤ f → cs.length ≤ g → tokenizeF f cs = tokenizeF g cs := by
  intro n
  induction n with
  | zero =>
      intro cs f g h1 _ _
      have : cs = [] := List.length_eq_zero.mp (Nat.le_zero.mp h1)
      subst this
      rw [tokenizeF_nil, tokenizeF_nil]
  | succ n ih =>
      intro cs f g h1 h2 h3
      cases cs with
      | nil => rw [tokenizeF_nil, tokenizeF_nil]
      | cons c cs' =>
          simp only [List.length_cons] at h1 h2 h3
          obtain ⟨f', rfl⟩ : ∃ f', f = f' + 1 := ⟨f - 1, by omega⟩
          obtain ⟨g', rfl⟩ : ∃ g', g = g' + 1 := ⟨g - 1, by omega⟩
          rw [tokenizeF, tokenizeF]
          split_ifs
          · rw [ih cs' f' g' (by omega) (by omega) (by omega)]
          · rw [ih cs' f' g' (by omega) (by omega) (by omega)]
          · rw [ih cs' f' g' (by omega) (by omega) (by omega)]
          · rw [ih cs' f' g' (by omega) (by omega) (by omega)]
          · cases hls : lexString cs' with
            | error er => rfl
            | ok p =>
                obtain ⟨s, r⟩ := p
                have hr := lexString_suffix_len cs' s r hls
                dsimp only
                rw [ih r f' g' (by omega) (by omega) (by omega)]
          · rw [ih cs' f' g' (by omega) (by omega) (by omega)]
          · cases numToken c (collectNum cs').1 with
            | error er => rfl
            | ok t =>
                have hr := collectNum_suffix_len cs'
                dsimp only
                rw [ih (collectNum cs').2 f' g' (by omega) (by omega) (by omega)]
          · have hr := collectIdent_suffix_len cs'
            rw [ih (collectIdent cs').2 f' g' (by omega) (by omega) (by omega)]
          · rfl


/-! ## Digit rendering and scanning -/

theorem natStrF_mono : ∀ (f g n : Nat), n < f → n < g → natStrF f n = natStrF g n := by
  intro f
  induction f with
  | zero => intro g n h1 _; omega
  | succ f ih =>
      intro g n h1 h2
      obtain ⟨g', rfl⟩ : ∃ g', g = g' + 1 := ⟨g - 1, by omega⟩
      rw [natStrF, natStrF]
      split_ifs with h
      · rfl
      · have hd : n / 10 < n := Nat.div_lt_self (by omega) (by omega)
        rw [ih g' (n / 10) (by omega) (by omega)]

theorem natStrF_eq (f n : Nat) (h : n < f) : natStrF f n = natStr n :=
  natStrF_mono f (n + 1) n h (Nat.lt_succ_self n)

theorem natStr_lt10 (n : Nat) (h : n < 10) : natStr n = [digitChar n] := by
  rw [natStr, natStrF, if_pos h]

theorem natStr_ge10 (n : Nat) (h : 10 ≤ n) :
    natStr n = natStr (n / 10) ++ [digitChar (n % 10)] := by
  have hd : n / 10 < n := Nat.div_lt_self (by omega) (by omega)
  rw [natStr, natStrF, if_neg (by omega), natStrF_eq n (n / 10) (by omega)]

theorem digitChar_isDigit (k : Nat) (h : k < 10) : (digitChar k).isDigit = true := by
  interval_cases k <;> decide

theorem digitChar_val (k : Nat) (h : k < 10) : (digitChar k).toNat - 48 = k := by
  interval_cases k <;> decide

theorem digitsVal_singleton (c : Char) : digitsVal [c] = c.toNat - 48 := by
  simp [digitsVal]

theorem digitsVal_snoc (xs : Str) (c : Char) :
    digitsVal (xs ++ [c]) = 10 * digitsVal xs + (c.toNat - 48) := by
  rw [digitsVal, List.foldl_append]
  rfl

theorem natStr_val : ∀ n, digitsVal (natStr n) = n := by
  intro n
  induction n using Nat.strong_induction_on with
  | _ n ih =>
      by_cases h : n < 10
      · rw [natStr_lt10 n h, digitsVal_singleton, digitChar_val n h]
      · have hd : n / 10 < n := Nat.div_lt_self (by omega) (by omega)
        rw [natStr_ge10 n (by omega), digitsVal_snoc, ih (n / 10) hd,
          digitChar_val (n % 10) (by omega)]
        omega

theorem natStr_chars : ∀ n, ∀ c ∈ natStr n, c.isDigit = true := by
  intro n
  induction n using Nat.strong_induction_on with
  | _ n ih =>
      intro c hc
      by_cases h : n < 10
      · rw [natStr_lt10 n h] at hc
        rcases List.mem_singleton.mp hc with rfl
        exact digitChar_isDigit n h
      · have hd : n / 10 < n := Nat.div_lt_self (by omega) (by omega)
        rw [natStr_ge10 n (by omega)] at hc
        rcases List.mem_append.mp hc with h' | h'
        · exact ih (n / 10) hd c h'
        · rcases List.mem_singleton.mp h' with rfl
          exact digitChar_isDigit (n % 10) (by omega)

theorem natStr_ne_nil (n : Nat) : natStr n ≠ [] := by
  by_cases h : n < 10
  · rw [natStr_lt10 n h]; simp
  · rw [natStr_ge10 n (by omega)]; simp

theorem natStr_length_le : ∀ (n e : Nat), n < 10 ^ e → 1 ≤ e → (natStr n).length ≤ e := by
  intro n
  induction n using Nat.strong_induction_on with
  | _ n ih =>
      intro e hn he
      by_cases h : n < 10
      · rw [natStr_lt10 n h]; simpa using he
      · have hd : n / 10 < n := Nat.div_lt_self (by omega) (by omega)
        have he2 : 2 ≤ e := by
          by_contra hcon
          have : e = 1 := by omega
          subst this
          simp at hn
          omega
        have hq : n / 10 < 10 ^ (e - 1) := by
          have h10 : 10 ^ e = 10 ^ (e - 1) * 10 := by
            conv_lhs => rw [show e = (e - 1) + 1 by omega]
            exact pow_succ 10 (e - 1)
          exact Nat.div_lt_of_lt_mul (by omega)
        have := ih (n / 10) hd (e - 1) hq (by omega)
        rw [natStr_ge10 n (by omega)]
        simp only [List.length_append, List.length_cons, List.length_nil]
        omega

theorem digitsVal_cons_zero (l : Str) : digitsVal ('0' :: l) = digitsVal l := rfl

theorem digitsVal_zeros (z : Nat) (t : Str) :
    digitsVal (List.replicate z '0' ++ t) = digitsVal t := by
  induction z with
  | zero => rfl
  | succ z ih => rw [List.replicate_succ, List.cons_append, digitsVal_cons_zero, ih]

/-- padDigits renders exactly `e` characters when the value fits. -/
theorem padDigits_length (e n : Nat) (hn : n < 10 ^ e) (he : 1 ≤ e) :
    (padDigits e n).length = e := by
  have := natStr_length_le n e hn he
  rw [padDigits]
  simp only [List.length_append, List.length_replicate]
  omega

theorem padDigits_val (e n : Nat) : digitsVal (padDigits e n) = n := by
  rw [padDigits, digitsVal_zeros, natStr_val]

theorem padDigits_chars (e n : Nat) : ∀ c ∈ padDigits e n, c.isDigit = true := by
  intro c hc
  rcases List.mem_append.mp hc with h | h
  · rcases List.eq_of_mem_replicate h with rfl
    decide
  · exact natStr_chars n c h

/-! ## Scanner characterizations -/

theorem collectNum_exact (t rest : List Char)
    (ht : ∀ c ∈ t, c = '.' ∨ c.isDigit = true) (hr : stopHead rest) :
    collectNum (t ++ rest) = (t, rest) := by
  induction t with
  | nil =>
      cases rest with
      | nil => rfl
      | cons r rest' =>
          rw [List.nil_append, collectNum, if_neg]
          exact hr.1
  | cons c t' ih =>
      rw [List.cons_append, collectNum, if_pos (ht c (by simp))]
      have := ih (fun x hx => ht x (by simp [hx]))
      rw [this]

theorem collectIdent_exact (t rest : List Char)
    (ht : ∀ c ∈ t, c.isAlphanum = true ∨ c = '_') (hr : stopHead rest) :
    collectIdent (t ++ rest) = (t, rest) := by
  induction t with
  | nil =>
      cases rest with
      | nil => rfl
      | cons r rest' =>
          rw [List.nil_append, collectIdent, if_neg]
          exact hr.2
  | cons c t' ih =>
      rw [List.cons_append, collectIdent, if_pos (ht c (by simp))]
      have := ih (fun x hx => ht x (by simp [hx]))
      rw [this]

theorem cleanStr_cons (c : Char) (s : Str) (h : cleanStr (c :: s) = true) :
    (c ≠ '"' ∧ c ≠ '\\') ∧ cleanStr s = true := by
  simp only [cleanStr, List.all_cons, Bool.and_eq_true] at h
  obtain ⟨h1, h2⟩ := h
  have h1' : ¬(c = '"') ∧ ¬(c = '\\') := by simpa using h1
  exact ⟨h1', by rw [cleanStr]; exact h2⟩

theorem lexString_clean (s : Str) (rest : List Char) (h : cleanStr s = true) :
    lexString (s ++ '"' :: rest) = .ok (s, rest) := by
  induction s with
  | nil =>
      rw [List.nil_append, lexString.eq_def]
      dsimp only
      rw [if_neg (by decide), if_pos rfl]
  | cons c s' ih =>
      obtain ⟨⟨hq, hb⟩, hs'⟩ := cleanStr_cons c s' h
      rw [List.cons_append, lexString.eq_def]
      dsimp only
      rw [if_neg hb, if_neg hq, ih hs']
      rfl

/-! ## Emission combinators -/

theorem emitsAll_sep {a : List Char} {t : List Token} (h : EmitsAll a t) : EmitsSep a t :=
  fun rest f _ hf => h rest f hf

theorem emitsAll_nil : EmitsAll [] [] := by
  intro rest f hf
  rw [List.nil_append,
    tokenizeF_mono rest.length rest f rest.length (Nat.le_refl _) (by simpa using hf) (Nat.le_refl _)]
  cases tokenizeF rest.length rest <;> rfl

theorem emitsAll_append {a b : List Char} {t1 t2 : List Token}
    (h1 : EmitsAll a t1) (h2 : EmitsAll b t2) : EmitsAll (a ++ b) (t1 ++ t2) := by
  intro rest f hf
  simp only [List.length_append] at hf
  rw [List.append_assoc, h1 (b ++ rest) f (by simp only [List.length_append]; omega),
    h2 rest (b ++ rest).length (by simp only [List.length_append]; omega)]
  cases tokenizeF rest.length rest with
  | error e => rfl
  | ok l => simp [Except.map, List.append_assoc]

theorem emitsAll_sep_append {a b : List Char} {t1 t2 : List Token}
    (h1 : EmitsAll a t1) (h2 : EmitsSep b t2) : EmitsSep (a ++ b) (t1 ++ t2) := by
  intro rest f hstop hf
  simp only [List.length_append] at hf
  rw [List.append_assoc, h1 (b ++ rest) f (by simp only [List.length_append]; omega),
    h2 rest (b ++ rest).length hstop (by simp only [List.length_append]; omega)]
  cases tokenizeF rest.length rest with
  | error e => rfl
  | ok l => simp [Except.map, List.append_assoc]

theorem emitsSep_append {a b : List Char} {t1 t2 : List Token}
    (h1 : EmitsSep a t1) (h2 : EmitsSep b t2)
    (hb : ∀ rest, stopHead rest → stopHead (b ++ rest)) :
    EmitsSep (a ++ b) (t1 ++ t2) := by
  intro rest f hstop hf
  simp only [List.length_append] at hf
  rw [List.append_assoc, h1 (b ++ rest) f (hb rest hstop) (by simp only [List.length_append]; omega),
    h2 rest (b ++ rest).length hstop (by simp only [List.length_append]; omega)]
  cases tokenizeF rest.length rest with
  | error e => rfl
  | ok l => simp [Except.map, List.append_assoc]

theorem stopHead_cons {c : Char} (b rest : List Char) (h : stopChar c) :
    stopHead ((c :: b) ++ rest) := h

/-! ## Emission of the individual tokens -/

theorem emitsAll_equal : EmitsAll ['='] [.equal] := by
  intro rest f hf
  simp only [List.singleton_append, List.length_singleton] at hf ⊢
  obtain ⟨f', rfl⟩ : ∃ f', f = f' + 1 := ⟨f - 1, by omega⟩
  rw [tokenizeF, if_pos rfl,
    tokenizeF_mono rest.length rest f' rest.length (Nat.le_refl _) (by omega) (Nat.le_refl _)]

theorem emitsAll_openBrace : EmitsAll ['{'] [.openBrace] := by
  intro rest f hf
  simp only [List.singleton_append, List.length_singleton] at hf ⊢
  obtain ⟨f', rfl⟩ : ∃ f', f = f' + 1 := ⟨f - 1, by omega⟩
  rw [tokenizeF, if_neg (by decide), if_pos rfl,
    tokenizeF_mono rest.length rest f' rest.length (Nat.le_refl _) (by omega) (Nat.le_refl _)]

theorem emitsAll_closeBrace : EmitsAll ['}'] [.closeBrace] := by
  intro rest f hf
  simp only [List.singleton_append, List.length_singleton] at hf ⊢
  obtain ⟨f', rfl⟩ : ∃ f', f = f' + 1 := ⟨f - 1, by omega⟩
  rw [tokenizeF, if_neg (by decide), if_neg (by decide), if_pos rfl,
    tokenizeF_mono rest.length rest f' rest.length (Nat.le_refl _) (by omega) (Nat.le_refl _)]

theorem emitsAll_comma : EmitsAll [','] [.comma] := by
  intro rest f hf
  simp only [List.singleton_append, List.length_singleton] at hf ⊢
  obtain ⟨f', rfl⟩ : ∃ f', f = f' + 1 := ⟨f - 1, by omega⟩
  rw [tokenizeF, if_neg (by decide), if_neg (by decide), if_neg (by decide), if_pos rfl,
    tokenizeF_mono rest.length rest f' rest.length (Nat.le_refl _) (by omega) (Nat.le_refl _)]

/-- Characters that `Char.isWhitespace` accepts. -/
theorem ws_char_cases (c : Char) (h : c.isWhitespace = true) :
    c = ' ' ∨ c = '\t' ∨ c = '\r' ∨ c = '\n' := by
  simp only [Char.isWhitespace, Bool.or_eq_true, decide_eq_true_eq] at h
  tauto

theorem emitsAll_ws (c : Char) (h : c.isWhitespace = true) : EmitsAll [c] [] := by
  intro rest f hf
  simp only [List.singleton_append, List.length_singleton] at hf ⊢
  obtain ⟨f', rfl⟩ : ∃ f', f = f' + 1 := ⟨f - 1, by omega⟩
  have hne : ∀ x : Char, x.isWhitespace = false → ¬(c = x) := by
    intro x hx hc; subst hc; rw [h] at hx; cases hx
  rw [tokenizeF, if_neg (hne '=' (by decide)), if_neg (hne '{' (by decide)),
    if_neg (hne '}' (by decide)), if_neg (hne ',' (by decide)),
    if_neg (hne '"' (by decide)), if_pos h,
    tokenizeF_mono rest.length rest f' rest.length (Nat.le_refl _) (by omega) (Nat.le_refl _)]
  cases tokenizeF rest.length rest <;> rfl

theorem emitsAll_string (s : Str) (h : cleanStr s = true) :
    EmitsAll ('"' :: s ++ ['"']) [.stringLiteral s] := by
  intro rest f hf
  simp only [List.length_append, List.length_cons, List.length_singleton] at hf
  obtain ⟨f', rfl⟩ : ∃ f', f = f' + 1 := ⟨f - 1, by omega⟩
  have hshape : ('"' :: s ++ ['"']) ++ rest = '"' :: (s ++ '"' :: rest) := by
    simp [List.append_assoc]
  rw [hshape, tokenizeF, if_neg (by decide), if_neg (by decide), if_neg (by decide),
    if_neg (by decide), if_pos rfl, lexString_clean s rest h]
  dsimp only
  rw [tokenizeF_mono rest.length rest f' rest.length (Nat.le_refl _) (by omega) (Nat.le_refl _)]
  rfl

/-! ## Character classes -/

theorem alnum_of_digit (c : Char) (h : c.isDigit = true) : c.isAlphanum = true := by
  rw [Char.isAlphanum, h, Bool.or_true]

theorem alnum_not_special (c : Char) (h : c.isAlphanum = true) :
    ¬(c = '=') ∧ ¬(c = '{') ∧ ¬(c = '}') ∧ ¬(c = ',') ∧ ¬(c = '"') ∧ ¬(c = '-') ∧ ¬(c = '.') ∧
      c.isWhitespace = false := by
  refine ⟨?_, ?_, ?_, ?_, ?_, ?_, ?_, ?_⟩
  · intro hc; subst hc; exact absurd h (by decide)
  · intro hc; subst hc; exact absurd h (by decide)
  · intro hc; subst hc; exact absurd h (by decide)
  · intro hc; subst hc; exact absurd h (by decide)
  · intro hc; subst hc; exact absurd h (by decide)
  · intro hc; subst hc; exact absurd h (by decide)
  · intro hc; subst hc; exact absurd h (by decide)
  · cases hw : c.isWhitespace with
    | false => rfl
    | true =>
        exfalso
        rcases ws_char_cases c hw with rfl | rfl | rfl | rfl <;> exact absurd h (by decide)

theorem contains_false_of_digits (ds : Str) (h : ∀ x ∈ ds, x.isDigit = true) :
    ds.contains '.' = false := by
  induction ds with
  | nil => rfl
  | cons d ds' ih =>
      have hd := h d (by simp)
      have hne : ('.' == d) = false := by
        cases hbeq : ('.' == d) with
        | false => rfl
        | true =>
            have hda : '.' = d := by simpa using hbeq
            rw [← hda] at hd
            exact absurd hd (by decide)
      rw [List.contains_cons, hne, Bool.false_or]
      exact ih (fun x hx => h x (by simp [hx]))

theorem contains_true_of_mem (l : Str) (x : Char) (h : x ∈ l) : l.contains x = true := by
  induction l with
  | nil => cases h
  | cons a l' ih =>
      rw [List.contains_cons]
      rcases List.mem_cons.mp h with rfl | h'
      · simp
      · rw [ih h', Bool.or_true]

/-- splitDot on a dot-free prefix followed by a literal dot. -/
theorem splitDot_exact (a b : Str) (ha : ∀ x ∈ a, ¬(x = '.')) :
    splitDot (a ++ '.' :: b) = (a, b) := by
  induction a with
  | nil => rw [List.nil_append, splitDot, if_pos rfl]
  | cons x a' ih =>
      rw [List.cons_append, splitDot, if_neg (ha x (by simp)),
        ih (fun y hy => ha y (by simp [hy]))]

/-! ## Emission of numeric literals and identifiers -/

theorem emitsSep_number (c : Char) (t : Str) (tok : Token)
    (hd : c.isDigit = true ∨ (c = '-' ∧ headIsDigit t = true))
    (ht : ∀ x ∈ t, x = '.' ∨ x.isDigit = true)
    (hnum : numToken c t = .ok tok) :
    EmitsSep (c :: t) [tok] := by
  intro rest f hstop hf
  simp only [List.length_cons] at hf
  obtain ⟨f', rfl⟩ : ∃ f', f = f' + 1 := ⟨f - 1, by omega⟩
  have hspec : ¬(c = '=') ∧ ¬(c = '{') ∧ ¬(c = '}') ∧ ¬(c = ',') ∧ ¬(c = '"') ∧
      c.isWhitespace = false := by
    rcases hd with h | ⟨h, _⟩
    · have ha := alnum_not_special c (alnum_of_digit c h)
      exact ⟨ha.1, ha.2.1, ha.2.2.1, ha.2.2.2.1, ha.2.2.2.2.1, ha.2.2.2.2.2.2.2⟩
    · subst h
      exact ⟨by decide, by decide, by decide, by decide, by decide, by decide⟩
  have hd' : c.isDigit = true ∨ (c = '-' ∧ headIsDigit (t ++ rest) = true) := by
    rcases hd with h | ⟨h1, h2⟩
    · exact Or.inl h
    · refine Or.inr ⟨h1, ?_⟩
      cases t with
      | nil => simp [headIsDigit] at h2
      | cons a t' => simpa [headIsDigit] using h2
  rw [show (c :: t) ++ rest = c :: (t ++ rest) from rfl, tokenizeF,
    if_neg hspec.1, if_neg hspec.2.1, if_neg hspec.2.2.1, if_neg hspec.2.2.2.1,
    if_neg hspec.2.2.2.2.1]
  rw [if_neg (by rw [hspec.2.2.2.2.2]; exact Bool.false_ne_true), if_pos hd']
  rw [collectNum_exact t rest ht hstop]
  dsimp only
  rw [hnum]
  dsimp only
  rw [tokenizeF_mono rest.length rest f' rest.length (Nat.le_refl _) (by omega) (Nat.le_refl _)]
  rfl

theorem emitsSep_ident (k : Str) (h : identShaped k = true) : EmitsSep k [.identifier k] := by
  obtain ⟨c, t, rfl, hhead, htail⟩ :
      ∃ c t, k = c :: t ∧ ((c.isAlphanum = true ∧ c.isDigit = false) ∨ c = '_') ∧
        (∀ x ∈ t, x.isAlphanum = true ∨ x = '_') := by
    cases k with
    | nil => cases h
    | cons c t =>
        simp only [identShaped, Bool.and_eq_true, Bool.or_eq_true, beq_iff_eq,
          Bool.not_eq_true', List.all_eq_true] at h
        exact ⟨c, t, rfl, h.1, h.2⟩
  intro rest f hstop hf
  simp only [List.length_cons] at hf
  obtain ⟨f', rfl⟩ : ∃ f', f = f' + 1 := ⟨f - 1, by omega⟩
  have hspec : ¬(c = '=') ∧ ¬(c = '{') ∧ ¬(c = '}') ∧ ¬(c = ',') ∧ ¬(c = '"') ∧
      c.isWhitespace = false ∧ c.isDigit = false ∧ ¬(c = '-') := by
    rcases hhead with ⟨h1, h2⟩ | h1
    · have ha := alnum_not_special c h1
      exact ⟨ha.1, ha.2.1, ha.2.2.1, ha.2.2.2.1, ha.2.2.2.2.1, ha.2.2.2.2.2.2.2, h2,
        ha.2.2.2.2.2.1⟩
    · subst h1
      exact ⟨by decide, by decide, by decide, by decide, by decide, by decide, by decide,
        by decide⟩
  have halnum : c.isAlphanum = true ∨ c = '_' := by
    rcases hhead with ⟨h1, _⟩ | h1
    · exact Or.inl h1
    · exact Or.inr h1
  rw [show (c :: t) ++ rest = c :: (t ++ rest) from rfl, tokenizeF,
    if_neg hspec.1, if_neg hspec.2.1, if_neg hspec.2.2.1, if_neg hspec.2.2.2.1,
    if_neg hspec.2.2.2.2.1]
  rw [if_neg (by rw [hspec.2.2.2.2.2.1]; exact Bool.false_ne_true)]
  rw [if_neg (by
    intro hcon
    rcases hcon with hdig | ⟨hminus, _⟩
    · rw [hspec.2.2.2.2.2.2.1] at hdig; cases hdig
    · exact hspec.2.2.2.2.2.2.2 hminus)]
  rw [if_pos halnum]
  rw [collectIdent_exact t rest htail hstop]
  dsimp only
  rw [tokenizeF_mono rest.length rest f' rest.length (Nat.le_refl _) (by omega) (Nat.le_refl _)]
  rfl

/-! ## The numeric token of a rendered literal -/

theorem natStr_cons (n : Nat) :
    ∃ c t, natStr n = c :: t ∧ c.isDigit = true ∧ ∀ x ∈ t, x.isDigit = true := by
  cases hn : natStr n with
  | nil => exact absurd hn (natStr_ne_nil n)
  | cons c t =>
      refine ⟨c, t, rfl, natStr_chars n c (by rw [hn]; simp), fun x hx =>
        natStr_chars n x (by rw [hn]; simp [hx])⟩

theorem numToken_int (i : Int) (hlo : -(2 ^ 63) ≤ i) (hhi : i ≤ 2 ^ 63 - 1) :
    ∃ c t, intStr i = c :: t ∧
      (c.isDigit = true ∨ (c = '-' ∧ headIsDigit t = true)) ∧
      (∀ x ∈ t, x = '.' ∨ x.isDigit = true) ∧
      numToken c t = .ok (.integerLiteral i) := by
  cases i with
  | ofNat n =>
      obtain ⟨c, t, hct, hc, htd⟩ := natStr_cons n
      have hcm : ¬(c = '-') := by
        intro hcon; subst hcon; exact absurd hc (by decide)
      refine ⟨c, t, by rw [intStr]; exact hct, Or.inl hc,
        fun x hx => Or.inr (htd x hx), ?_⟩
      rw [numToken]
      simp only [if_neg hcm]
      rw [contains_false_of_digits t htd]
      simp only [Bool.false_eq_true, if_false]
      rw [intToken]
      have hval : digitsVal (c :: t) = n := by rw [← hct, natStr_val]
      rw [hval]
      rw [if_neg (by
        rw [Int.ofNat_eq_coe] at hhi
        push_cast
        omega)]
      have : 1 * ((n : Int)) = Int.ofNat n := by rw [Int.ofNat_eq_coe]; ring
      rw [this]
  | negSucc n =>
      obtain ⟨a, t', hat, ha, _⟩ := natStr_cons (n + 1)
      refine ⟨'-', natStr (n + 1), rfl, Or.inr ⟨rfl, by rw [hat, headIsDigit]; exact ha⟩,
        fun x hx => Or.inr (natStr_chars (n + 1) x hx), ?_⟩
      rw [numToken]
      simp only [reduceIte]
      rw [contains_false_of_digits (natStr (n + 1)) (natStr_chars (n + 1))]
      simp only [Bool.false_eq_true, if_false]
      rw [intToken, natStr_val]
      have hns : -1 * (((n : Nat) + 1 : Nat) : Int) = Int.negSucc n := by
        rw [Int.negSucc_eq]; push_cast; ring
      rw [if_neg (by
        rw [Int.negSucc_eq] at hlo
        push_cast
        omega)]
      rw [hns]

theorem digit_ne_dot (x : Char) (h : x.isDigit = true) : ¬(x = '.') := fun hc => by
  subst hc; exact absurd h (by decide)

theorem canonFloat_zero_exp (f : Nat) (m : Int) : canonFloat f m 0 = (m, 0) := by
  cases f <;> rfl

theorem canonFloat_mul10 (m : Int) : canonFloat 1 (m * 10) 1 = (m, 0) := by
  rw [canonFloat, if_pos (by omega), canonFloat_zero_exp]
  congr 1
  omega

theorem canonFloat_stop (m : Int) (k : Nat) (hm : ¬(m % 10 = 0)) :
    canonFloat (k + 1) m (k + 1) = (m, k + 1) := by
  rw [canonFloat, if_neg hm]

theorem canonFloat_of_eq_mul10 (x m : Int) (hx : x = m * 10) :
    canonFloat 1 x 1 = (m, 0) := by
  rw [hx]; exact canonFloat_mul10 m

theorem canonFloat_of_eq_stop (x m : Int) (k : Nat) (hx : x = m) (hm : ¬(m % 10 = 0)) :
    canonFloat (k + 1) x (k + 1) = (m, k + 1) := by
  rw [hx]; exact canonFloat_stop m k hm

theorem numToken_floatZero (m : Int) :
    ∃ c t, (intStr m ++ ".0".data) = c :: t ∧
      (c.isDigit = true ∨ (c = '-' ∧ headIsDigit t = true)) ∧
      (∀ x ∈ t, x = '.' ∨ x.isDigit = true) ∧
      numToken c t = .ok (.floatLiteral m 0) := by
  cases m with
  | ofNat n =>
      obtain ⟨c, t0, hct, hc, htd⟩ := natStr_cons n
      have hcm : ¬(c = '-') := by intro hcon; subst hcon; exact absurd hc (by decide)
      have hshape : intStr (Int.ofNat n) ++ ".0".data = c :: (t0 ++ ['.', '0']) := by
        rw [intStr, hct]; rfl
      refine ⟨c, t0 ++ ['.', '0'], hshape, Or.inl hc, ?_, ?_⟩
      · intro x hx
        rcases List.mem_append.mp hx with h' | h'
        · exact Or.inr (htd x h')
        · have hx2 : x = '.' ∨ x = '0' := by simpa using h'
          rcases hx2 with rfl | rfl
          · exact Or.inl rfl
          · exact Or.inr (by decide)
      · rw [numToken]
        simp only [if_neg hcm]
        rw [contains_true_of_mem _ '.' (by simp), if_pos rfl]
        rw [floatToken]
        have hdig : c :: (t0 ++ ['.', '0']) = natStr n ++ '.' :: ['0'] := by
          rw [hct]; rfl
        rw [hdig, splitDot_exact (natStr n) ['0']
          (fun x hx => digit_ne_dot x (natStr_chars n x hx))]
        dsimp only
        rw [if_neg (by decide)]
        simp only [List.length_singleton]
        rw [natStr_val, show digitsVal ['0'] = 0 from rfl]
        rw [canonFloat_of_eq_mul10 _ ((n : Nat) : Int) (by push_cast; ring)]
        rfl
  | negSucc n =>
      obtain ⟨a, t', hat, ha, _⟩ := natStr_cons (n + 1)
      have hshape : intStr (Int.negSucc n) ++ ".0".data =
          '-' :: (natStr (n + 1) ++ ['.', '0']) := by
        rw [intStr]; rfl
      refine ⟨'-', natStr (n + 1) ++ ['.', '0'], hshape,
        Or.inr ⟨rfl, by rw [hat]; exact ha⟩, ?_, ?_⟩
      · intro x hx
        rcases List.mem_append.mp hx with h' | h'
        · exact Or.inr (natStr_chars (n + 1) x h')
        · have hx2 : x = '.' ∨ x = '0' := by simpa using h'
          rcases hx2 with rfl | rfl
          · exact Or.inl rfl
          · exact Or.inr (by decide)
      · rw [numToken]
        simp only [reduceIte]
        rw [contains_true_of_mem _ '.' (by simp), if_pos rfl]
        rw [floatToken]
        rw [show natStr (n + 1) ++ ['.', '0'] = natStr (n + 1) ++ '.' :: ['0'] from rfl,
          splitDot_exact (natStr (n + 1)) ['0']
            (fun x hx => digit_ne_dot x (natStr_chars (n + 1) x hx))]
        dsimp only
        rw [if_neg (by decide)]
        simp only [List.length_singleton]
        rw [natStr_val, show digitsVal ['0'] = 0 from rfl]
        rw [canonFloat_of_eq_mul10 _ (Int.negSucc n)
          (by rw [Int.negSucc_eq]; push_cast; ring)]

theorem numToken_floatPos (m : Int) (e : Nat) (he : 1 ≤ e) (hm : ¬(m % 10 = 0)) :
    ∃ c t, floatStr m e = c :: t ∧
      (c.isDigit = true ∨ (c = '-' ∧ headIsDigit t = true)) ∧
      (∀ x ∈ t, x = '.' ∨ x.isDigit = true) ∧
      numToken c t = .ok (.floatLiteral m e) := by
  have hrlt : m.natAbs % 10 ^ e < 10 ^ e := Nat.mod_lt _ (Nat.pos_pow_of_pos e (by norm_num))
  have hplen : (padDigits e (m.natAbs % 10 ^ e)).length = e := padDigits_length _ _ hrlt he
  have htail : ∀ x ∈ '.' :: padDigits e (m.natAbs % 10 ^ e), x = '.' ∨ x.isDigit = true := by
    intro x hx
    rcases List.mem_cons.mp hx with rfl | h'
    · exact Or.inl rfl
    · exact Or.inr (padDigits_chars e _ x h')
  have hsplit : splitDot (natStr (m.natAbs / 10 ^ e) ++ '.' :: padDigits e (m.natAbs % 10 ^ e)) =
      (natStr (m.natAbs / 10 ^ e), padDigits e (m.natAbs % 10 ^ e)) :=
    splitDot_exact _ _ (fun x hx => digit_ne_dot x (natStr_chars _ x hx))
  have hfrdot : (padDigits e (m.natAbs % 10 ^ e)).contains '.' = false :=
    contains_false_of_digits _ (padDigits_chars e _)
  obtain ⟨k, rfl⟩ : ∃ k, e = k + 1 := ⟨e - 1, by omega⟩
  have hmod : m.natAbs / 10 ^ (k + 1) * 10 ^ (k + 1) + m.natAbs % 10 ^ (k + 1) = m.natAbs := by
    rw [Nat.mul_comm (m.natAbs / 10 ^ (k + 1)) (10 ^ (k + 1))]
    exact Nat.div_add_mod _ _
  by_cases hneg : m < 0
  · have hshape : floatStr m (k + 1) =
        '-' :: (natStr (m.natAbs / 10 ^ (k + 1)) ++
          '.' :: padDigits (k + 1) (m.natAbs % 10 ^ (k + 1))) := by
      rw [floatStr, if_pos hneg]; rfl
    obtain ⟨a, t', hat, ha, _⟩ := natStr_cons (m.natAbs / 10 ^ (k + 1))
    refine ⟨'-', _, hshape, Or.inr ⟨rfl, by rw [hat]; exact ha⟩, ?_, ?_⟩
    · intro x hx
      rcases List.mem_append.mp hx with h' | h'
      · exact Or.inr (natStr_chars _ x h')
      · exact htail x h'
    · rw [numToken]
      simp only [reduceIte]
      rw [contains_true_of_mem _ '.' (by simp), if_pos rfl]
      rw [floatToken, hsplit]
      dsimp only
      rw [if_neg (by intro hcon; rw [hfrdot] at hcon; cases hcon)]
      rw [natStr_val, padDigits_val, hplen]
      have h1 : ((m.natAbs / 10 ^ (k + 1) : Nat) : Int) * ((10 ^ (k + 1) : Nat) : Int) +
          ((m.natAbs % 10 ^ (k + 1) : Nat) : Int) = ((m.natAbs : Nat) : Int) := by
        exact_mod_cast congrArg (fun x : Nat => (x : Int)) hmod
      have hp : ((10 ^ (k + 1) : Nat) : Int) = (10 : Int) ^ (k + 1) := by
        exact_mod_cast rfl
      rw [hp] at h1
      have habs : ((m.natAbs : Nat) : Int) = -m := by omega
      rw [habs] at h1
      rw [canonFloat_of_eq_stop _ m k (by rw [neg_one_mul, h1, neg_neg]) hm]
  · have hshape : floatStr m (k + 1) =
        natStr (m.natAbs / 10 ^ (k + 1)) ++
          '.' :: padDigits (k + 1) (m.natAbs % 10 ^ (k + 1)) := by
      rw [floatStr, if_neg hneg]; rfl
    obtain ⟨c, t0, hct, hc, htd⟩ := natStr_cons (m.natAbs / 10 ^ (k + 1))
    have hcm : ¬(c = '-') := by intro hcon; subst hcon; exact absurd hc (by decide)
    have hshape2 : floatStr m (k + 1) =
        c :: (t0 ++ '.' :: padDigits (k + 1) (m.natAbs % 10 ^ (k + 1))) := by
      rw [hshape, hct]; rfl
    refine ⟨c, _, hshape2, Or.inl hc, ?_, ?_⟩
    · intro x hx
      rcases List.mem_append.mp hx with h' | h'
      · exact Or.inr (htd x h')
      · exact htail x h'
    · rw [numToken]
      simp only [if_neg hcm]
      rw [contains_true_of_mem _ '.' (by simp), if_pos rfl]
      rw [floatToken]
      rw [show c :: (t0 ++ '.' :: padDigits (k + 1) (m.natAbs % 10 ^ (k + 1))) =
        natStr (m.natAbs / 10 ^ (k + 1)) ++ '.' :: padDigits (k + 1) (m.natAbs % 10 ^ (k + 1)) by
        rw [hct]; rfl]
      rw [hsplit]
      dsimp only
      rw [if_neg (by intro hcon; rw [hfrdot] at hcon; cases hcon)]
      rw [natStr_val, padDigits_val, hplen]
      have h1 : ((m.natAbs / 10 ^ (k + 1) : Nat) : Int) * ((10 ^ (k + 1) : Nat) : Int) +
          ((m.natAbs % 10 ^ (k + 1) : Nat) : Int) = ((m.natAbs : Nat) : Int) := by
        exact_mod_cast congrArg (fun x : Nat => (x : Int)) hmod
      have hp : ((10 ^ (k + 1) : Nat) : Int) = (10 : Int) ^ (k + 1) := by
        exact_mod_cast rfl
      rw [hp] at h1
      have habs : ((m.natAbs : Nat) : Int) = m := by omega
      rw [habs] at h1
      rw [canonFloat_of_eq_stop _ m k (by rw [one_mul, h1]) hm]

/-! ## Tokenization of serialized values -/

theorem emitsAll_indent (lvl : Nat) : EmitsAll (indentStr lvl) [] := by
  induction lvl with
  | zero => exact emitsAll_nil
  | succ n ih =>
      have := emitsAll_append (emitsAll_ws '\t' (by decide)) ih
      simpa [indentStr, List.replicate_succ] using this

theorem emitsSep_intStr (i : Int) (hlo : -(2 ^ 63) ≤ i) (hhi : i ≤ 2 ^ 63 - 1) :
    EmitsSep (intStr i) [.integerLiteral i] := by
  obtain ⟨c, t, hshape, hd, ht, hnum⟩ := numToken_int i hlo hhi
  rw [hshape]
  exact emitsSep_number c t _ hd ht hnum

theorem emitsSep_floatZero (m : Int) :
    EmitsSep (intStr m ++ ".0".data) [.floatLiteral m 0] := by
  obtain ⟨c, t, hshape, hd, ht, hnum⟩ := numToken_floatZero m
  rw [hshape]
  exact emitsSep_number c t _ hd ht hnum

theorem emitsSep_floatPos (m : Int) (e : Nat) (he : 1 ≤ e) (hm : ¬(m % 10 = 0)) :
    EmitsSep (floatStr m e) [.floatLiteral m e] := by
  obtain ⟨c, t, hshape, hd, ht, hnum⟩ := numToken_floatPos m e he hm
  rw [hshape]
  exact emitsSep_number c t _ hd ht hnum

mutual

theorem valueEmits : ∀ (v : Value) (lvl : Nat), wfValue v → cleanValue v = true →
    EmitsSep (valueToScript v lvl) (valueTokens v)
  | .str s, lvl => by
      intro _ hclean
      exact emitsAll_sep (emitsAll_string s hclean)
  | .integer i, lvl => by
      intro hwf _
      exact emitsSep_intStr i hwf.1 hwf.2
  | .float m e, lvl => by
      intro hwf _
      cases e with
      | zero =>
          rw [valueToScript, if_pos rfl]
          exact emitsSep_floatZero m
      | succ k =>
          rw [valueToScript, if_neg (Nat.succ_ne_zero k)]
          have hm : ¬(m % 10 = 0) := by
            rcases hwf with h | h
            · cases h
            · exact h
          exact emitsSep_floatPos m (k + 1) (by omega) hm
  | .array l, lvl => by
      intro hwf hclean
      rw [valueToScript]
      have hD := elemsEmits l (lvl + 1) hwf hclean
      have hE : EmitsAll ('\n' :: (indentStr lvl ++ ['}'])) [Token.closeBrace] := by
        have := emitsAll_append (emitsAll_ws '\n' (by decide))
          (emitsAll_append (emitsAll_indent lvl) emitsAll_closeBrace)
        simpa using this
      have hDE := emitsSep_append hD (emitsAll_sep hE)
        (fun rest hrest => stopHead_cons _ rest ⟨by decide, by decide⟩)
      have hC := emitsAll_sep_append (emitsAll_indent (lvl + 1)) hDE
      have hB := emitsAll_sep_append (emitsAll_ws '\n' (by decide)) hC
      have hA := emitsAll_sep_append emitsAll_openBrace hB
      simpa [valueTokens, List.append_assoc] using hA
  | .dictionary d, lvl => by
      intro hwf hclean
      rw [valueToScript]
      have hD := entriesEmits d (lvl + 1) hwf hclean
      have hE : EmitsAll ('\n' :: indentStr lvl) ([] : List Token) := by
        have := emitsAll_append (emitsAll_ws '\n' (by decide)) (emitsAll_indent lvl)
        simpa using this
      have hDE := emitsSep_append hD (emitsAll_sep hE)
        (fun rest hrest => stopHead_cons _ rest ⟨by decide, by decide⟩)
      have hC := emitsAll_sep_append (emitsAll_indent (lvl + 1)) hDE
      have hB := emitsAll_sep_append (emitsAll_ws '\n' (by decide)) hC
      simpa [valueTokens, List.append_assoc] using hB

theorem elemsEmits : ∀ (l : List Value) (lvl : Nat), wfList l → cleanList l = true →
    EmitsSep (joinSep (renderElems l lvl) (',' :: '\n' :: indentStr lvl)) (joinTok (elemTokens l))
  | [], lvl => by
      intro _ _
      exact emitsAll_sep emitsAll_nil
  | [v], lvl => by
      intro hwf hclean
      rw [cleanList, Bool.and_eq_true] at hclean
      exact valueEmits v lvl hwf.1 hclean.1
  | v :: v' :: vs, lvl => by
      intro hwf hclean
      rw [wfList] at hwf
      rw [cleanList, Bool.and_eq_true] at hclean
      have hA := valueEmits v lvl hwf.1 hclean.1
      have hsep : EmitsAll (',' :: '\n' :: indentStr lvl) [Token.comma] := by
        have := emitsAll_append emitsAll_comma
          (emitsAll_append (emitsAll_ws '\n' (by decide)) (emitsAll_indent lvl))
        simpa using this
      have hBC := emitsAll_sep_append hsep (elemsEmits (v' :: vs) lvl hwf.2 hclean.2)
      have hfin := emitsSep_append hA hBC
        (fun rest hrest => stopHead_cons _ rest ⟨by decide, by decide⟩)
      simpa [renderElems, elemTokens, joinSep, joinTok] using hfin

theorem entriesEmits : ∀ (d : List (Str × Value)) (lvl : Nat), wfEntry d → cleanEntries d = true →
    EmitsSep (joinSep (renderEntries d lvl) (',' :: '\n' :: indentStr lvl)) (joinTok (entryTokens d))
  | [], lvl => by
      intro hwf _
      cases hwf
  | [(k, w)], lvl => by
      intro hwf hclean
      rw [wfEntry] at hwf
      rw [cleanEntries, Bool.and_eq_true] at hclean
      have hinner := emitsAll_sep_append emitsAll_equal (valueEmits w lvl hwf.2 hclean.1)
      have h := emitsSep_append (emitsSep_ident k hwf.1) hinner
        (fun rest hrest => stopHead_cons _ rest ⟨by decide, by decide⟩)
      exact h
  | p :: q :: rest, lvl => by
      intro hwf _
      cases hwf

end

theorem docEmits : ∀ (doc : Doc), wfDocEntries doc → cleanEntries doc = true →
    EmitsSep (reconstructScript doc) (docTokens doc)
  | [] => fun _ _ => emitsAll_sep emitsAll_nil
  | (k, v) :: d => by
      intro hwf hclean
      rw [wfDocEntries] at hwf
      rw [cleanEntries, Bool.and_eq_true] at hclean
      have h7 := docEmits d hwf.2.2 hclean.2
      have h6 := emitsAll_sep_append (emitsAll_ws '\n' (by decide)) h7
      have h5 := emitsSep_append (valueEmits v 0 hwf.2.1 hclean.1) h6
        (fun rest hrest => stopHead_cons _ rest ⟨by decide, by decide⟩)
      have h4 := emitsAll_sep_append (emitsAll_ws ' ' (by decide)) h5
      have h3 := emitsAll_sep_append emitsAll_equal h4
      have h2 := emitsAll_sep_append (emitsAll_ws ' ' (by decide)) h3
      have h1 := emitsSep_append (emitsSep_ident k hwf.1) h2
        (fun rest hrest => stopHead_cons _ rest ⟨by decide, by decide⟩)
      simpa [reconstructScript, docTokens, List.append_assoc] using h1

/-- Tokenizing the serialized text of a well-formed, clean document yields
exactly its token image. -/
theorem tokenize_reconstruct (doc : Doc) (hwf : wfDocEntries doc)
    (hclean : cleanEntries doc = true) :
    tokenize (reconstructScript doc) = .ok (docTokens doc) := by
  have h := docEmits doc hwf hclean [] (reconstructScript doc).length
    trivial (by simp)
  rw [List.append_nil] at h
  rw [tokenize, h]
  simp [tokenizeF_nil, Except.map]

/-! ## Parsing the token image -/

theorem valueTokens_head (v : Value) (hwf : wfValue v) :
    ∃ t ts, valueTokens v = t :: ts ∧ t ≠ .closeBrace ∧ t ≠ .comma := by
  cases v with
  | str s => exact ⟨.stringLiteral s, [], rfl, fun h => Token.noConfusion h,
      fun h => Token.noConfusion h⟩
  | integer i => exact ⟨.integerLiteral i, [], rfl, fun h => Token.noConfusion h,
      fun h => Token.noConfusion h⟩
  | float m e => exact ⟨.floatLiteral m e, [], rfl, fun h => Token.noConfusion h,
      fun h => Token.noConfusion h⟩
  | array l => exact ⟨.openBrace, _, rfl, fun h => Token.noConfusion h,
      fun h => Token.noConfusion h⟩
  | dictionary d =>
      match d, hwf with
      | [(k, w)], _ =>
          exact ⟨.identifier k, .equal :: valueTokens w, rfl, fun h => Token.noConfusion h,
            fun h => Token.noConfusion h⟩

theorem parseArrayF_cons_value (f : Nat) (acc : List Value) (t : Token) (ts : List Token)
    (h1 : t ≠ .closeBrace) (h2 : t ≠ .comma) :
    parseArrayF (f + 1) acc (t :: ts) =
      (match parseValueF f (t :: ts) with
       | .error e => .error e
       | .ok (v, r) => parseArrayF f (acc ++ [v]) r) := by
  cases t <;> first | rfl | exact absurd rfl h1 | exact absurd rfl h2

mutual

theorem parseValue_image : ∀ (v : Value), wfValue v → ∀ (rest : List Token) (f : Nat),
    (valueTokens v).length < f → parseValueF f (valueTokens v ++ rest) = .ok (v, rest)
  | .str s, _, rest, f => by
      intro hf
      obtain ⟨f', rfl⟩ : ∃ f', f = f' + 1 := ⟨f - 1, by omega⟩
      rfl
  | .integer i, _, rest, f => by
      intro hf
      obtain ⟨f', rfl⟩ : ∃ f', f = f' + 1 := ⟨f - 1, by omega⟩
      rfl
  | .float m e, _, rest, f => by
      intro hf
      obtain ⟨f', rfl⟩ : ∃ f', f = f' + 1 := ⟨f - 1, by omega⟩
      rfl
  | .array l, hwf, rest, f => by
      intro hf
      simp only [valueTokens, List.length_cons, List.length_append,
        List.length_singleton] at hf
      obtain ⟨f', rfl⟩ : ∃ f', f = f' + 1 := ⟨f - 1, by omega⟩
      have harr := parseArray_image l hwf [] rest f' (by omega)
      calc parseValueF (f' + 1) (valueTokens (.array l) ++ rest)
          = parseArrayF f' [] (joinTok (elemTokens l) ++ .closeBrace :: rest) := by
            rw [show valueTokens (.array l) ++ rest =
              .openBrace :: (joinTok (elemTokens l) ++ .closeBrace :: rest) by
              rw [valueTokens]; simp [List.append_assoc]]
            rfl
        _ = .ok (.array ([] ++ l), rest) := harr
        _ = .ok (.array l, rest) := by rw [List.nil_append]

  | .dictionary d, hwf, rest, f => by
      match d, hwf with
      | [(k, w)], hwf0 =>
          intro hf
          have hwf : identShaped k = true ∧ wfValue w := hwf0
          have hlen : (valueTokens (.dictionary [(k, w)])).length =
              (valueTokens w).length + 2 := by
            show (Token.identifier k :: Token.equal :: valueTokens w).length = _
            simp
          rw [hlen] at hf
          obtain ⟨f', rfl⟩ : ∃ f', f = f' + 1 := ⟨f - 1, by omega⟩
          have hw := parseValue_image w hwf.2 rest f' (by omega)
          calc parseValueF (f' + 1) (valueTokens (.dictionary [(k, w)]) ++ rest)
              = (parseValueF f' (valueTokens w ++ rest)).map
                  (fun p => (Value.dictionary [(k, p.1)], p.2)) := rfl
            _ = .ok (.dictionary [(k, w)], rest) := by rw [hw]; rfl

theorem parseArray_image : ∀ (l : List Value), wfList l →
    ∀ (acc : List Value) (rest : List Token) (f : Nat),
    (joinTok (elemTokens l)).length + 2 ≤ f →
    parseArrayF f acc (joinTok (elemTokens l) ++ .closeBrace :: rest) = .ok (.array (acc ++ l), rest)
  | [], _, acc, rest, f => by
      intro hf
      obtain ⟨f', rfl⟩ : ∃ f', f = f' + 1 := ⟨f - 1, by omega⟩
      rw [show joinTok (elemTokens []) ++ .closeBrace :: rest = .closeBrace :: rest from rfl]
      rw [show parseArrayF (f' + 1) acc (Token.closeBrace :: rest) =
        .ok (.array acc, rest) from rfl, List.append_nil]
  | [v], hwf, acc, rest, f => by
      intro hf
      obtain ⟨t, ts', hts, ht1, ht2⟩ := valueTokens_head v hwf.1
      have hjoin : joinTok (elemTokens [v]) = valueTokens v := rfl
      rw [hjoin] at hf ⊢
      obtain ⟨f', rfl⟩ : ∃ f', f = f' + 1 := ⟨f - 1, by omega⟩
      rw [hts, List.cons_append, parseArrayF_cons_value f' acc t (ts' ++ .closeBrace :: rest) ht1 ht2,
        ← List.cons_append, ← hts]
      rw [parseValue_image v hwf.1 (.closeBrace :: rest) f' (by omega)]
      dsimp only
      obtain ⟨f'', rfl⟩ : ∃ f'', f' = f'' + 1 := ⟨f' - 1, by omega⟩
      rfl
  | v :: v' :: vs, hwf, acc, rest, f => by
      intro hf
      rw [wfList] at hwf
      obtain ⟨t, ts', hts, ht1, ht2⟩ := valueTokens_head v hwf.1
      have hjoin : joinTok (elemTokens (v :: v' :: vs)) =
          valueTokens v ++ .comma :: joinTok (elemTokens (v' :: vs)) := rfl
      rw [hjoin] at hf ⊢
      have htv : 1 ≤ (valueTokens v).length := by rw [hts]; simp
      simp only [List.length_append, List.length_cons] at hf
      obtain ⟨f', rfl⟩ : ∃ f', f = f' + 1 := ⟨f - 1, by omega⟩
      rw [List.append_assoc, hts, List.cons_append,
        parseArrayF_cons_value f' acc t _ ht1 ht2, ← List.cons_append, ← hts,
        ← List.append_assoc]
      rw [show (valueTokens v ++ Token.comma :: joinTok (elemTokens (v' :: vs))) ++
        Token.closeBrace :: rest =
        valueTokens v ++ (Token.comma :: (joinTok (elemTokens (v' :: vs)) ++
          Token.closeBrace :: rest)) by simp [List.append_assoc]]
      rw [parseValue_image v hwf.1 _ f' (by omega)]
      dsimp only
      obtain ⟨f'', rfl⟩ : ∃ f'', f' = f'' + 1 := ⟨f' - 1, by omega⟩
      rw [show parseArrayF (f'' + 1) (acc ++ [v])
        (Token.comma :: (joinTok (elemTokens (v' :: vs)) ++ Token.closeBrace :: rest)) =
        parseArrayF f'' (acc ++ [v])
          (joinTok (elemTokens (v' :: vs)) ++ Token.closeBrace :: rest) from rfl]
      rw [parseArray_image (v' :: vs) hwf.2 (acc ++ [v]) rest f'' (by omega)]
      rw [List.append_assoc]
      rfl

end

/-! ## Top-level parse of a document's token image -/

theorem getKey_append_left_none (a b : List (Str × Value)) (k : Str)
    (h : getKey a k = none) : getKey (a ++ b) k = getKey b k := by
  induction a with
  | nil => rfl
  | cons p rest ih =>
      obtain ⟨k', v'⟩ := p
      rw [getKey] at h
      rw [List.cons_append, getKey]
      by_cases hk : k' = k
      · rw [if_pos hk] at h; cases h
      · rw [if_neg hk] at h
        rw [if_neg hk]
        exact ih h

theorem insertKey_absent (acc : Doc) (k : Str) (v : Value) (h : getKey acc k = none) :
    insertKey acc k v = acc ++ [(k, v)] := by
  rw [insertKey, h]
  rfl

theorem parseTop_image : ∀ (doc : Doc), wfDocEntries doc → (doc.map Prod.fst).Nodup →
    ∀ (acc : Doc) (f : Nat), (∀ p ∈ doc, getKey acc p.1 = none) →
    (docTokens doc).length + 1 ≤ f →
    parseTopF f acc (docTokens doc) = .ok (acc ++ doc)
  | [] => by
      intro _ _ acc f _ hf
      obtain ⟨f', rfl⟩ : ∃ f', f = f' + 1 := ⟨f - 1, by omega⟩
      rw [show docTokens [] = [] from rfl, show parseTopF (f' + 1) acc [] = .ok acc from rfl,
        List.append_nil]
  | (k, v) :: d => by
      intro hwf hnodup acc f hdisj hf
      have hwf' : identShaped k = true ∧ wfValue v ∧ wfDocEntries d := hwf
      rw [List.map_cons, List.nodup_cons] at hnodup
      have hlen : (docTokens ((k, v) :: d)).length =
          (valueTokens v).length + (docTokens d).length + 2 := by
        show (Token.identifier k :: Token.equal :: (valueTokens v ++ docTokens d)).length = _
        simp only [List.length_cons, List.length_append]
      rw [hlen] at hf
      obtain ⟨f', rfl⟩ : ∃ f', f = f' + 1 := ⟨f - 1, by omega⟩
      have hstep : parseTopF (f' + 1) acc (docTokens ((k, v) :: d)) =
          (match parseValueF f' (valueTokens v ++ docTokens d) with
           | .error e => .error e
           | .ok (w, r) => parseTopF f' (insertKey acc k w) r) := rfl
      rw [hstep, parseValue_image v hwf'.2.1 (docTokens d) f' (by omega)]
      dsimp only
      rw [insertKey_absent acc k v (hdisj (k, v) (by simp))]
      have hdisj' : ∀ p ∈ d, getKey (acc ++ [(k, v)]) p.1 = none := by
        intro p hp
        rw [getKey_append_left_none acc [(k, v)] p.1 (hdisj p (by simp [hp]))]
        rw [getKey]
        rw [if_neg]
        · rfl
        · intro hkp
          apply hnodup.1
          rw [show ((k, v).1 : Str) = k from rfl, hkp]
          exact List.mem_map_of_mem Prod.fst hp
      rw [parseTop_image d hwf'.2.2 hnodup.2 (acc ++ [(k, v)]) f' hdisj' (by omega)]
      rw [List.append_assoc]
      rfl

/-- Parsing the token image of a well-formed document with distinct keys
recovers the document exactly. -/
theorem parseTokens_image (doc : Doc) (hwf : wfDocEntries doc)
    (hnodup : (doc.map Prod.fst).Nodup) :
    parseTokens (docTokens doc) = .ok doc := by
  rw [parseTokens]
  have h := parseTop_image doc hwf hnodup [] (2 * (docTokens doc).length + 1)
    (fun p _ => rfl) (by omega)
  simpa using h

/-! ## Invariants of tokenizer output -/

theorem collectIdent_chars : ∀ (cs : List Char), ∀ x ∈ (collectIdent cs).1,
    x.isAlphanum = true ∨ x = '_' := by
  intro cs
  induction cs with
  | nil => intro x hx; cases hx
  | cons c rest ih =>
      intro x hx
      rw [collectIdent] at hx
      split_ifs at hx with h
      · rcases List.mem_cons.mp hx with rfl | hm
        · exact h
        · exact ih x hm
      · cases hx

theorem canonFloat_canonical : ∀ (f : Nat) (m : Int) (e : Nat), e ≤ f →
    (canonFloat f m e).2 = 0 ∨ ¬((canonFloat f m e).1 % 10 = 0) := by
  intro f
  induction f with
  | zero =>
      intro m e he
      have : e = 0 := by omega
      subst this
      rw [canonFloat_zero_exp]
      exact Or.inl rfl
  | succ f ih =>
      intro m e he
      cases e with
      | zero => rw [canonFloat_zero_exp]; exact Or.inl rfl
      | succ e' =>
          rw [canonFloat]
          split_ifs with hm
          · exact ih (m / 10) e' (by omega)
          · exact Or.inr hm

theorem numToken_wf (c : Char) (ds : Str) (tk : Token) (h : numToken c ds = .ok tk) :
    tokWF tk := by
  rw [numToken] at h
  set sign := if c = '-' then (-1 : Int) else 1 with hsign
  set digits := if c = '-' then ds else c :: ds with hdigits
  split_ifs at h with hdot
  · -- float literal
    rw [floatToken] at h
    split_ifs at h with hfr <;> cases h
    exact canonFloat_canonical _ _ _ (Nat.le_refl _)
  · -- integer literal
    rw [intToken] at h
    split_ifs at h with hrange <;> cases h
    rw [tokWF]
    push_neg at hrange
    omega

theorem tokenizeF_wf : ∀ (f : Nat) (cs : List Char) (ts : List Token),
    tokenizeF f cs = .ok ts → ∀ t ∈ ts, tokWF t := by
  intro f
  induction f with
  | zero =>
      intro cs ts h t ht
      cases cs with
      | nil => cases h; cases ht
      | cons c cs' => cases h
  | succ f ih =>
      intro cs ts h t ht
      cases cs with
      | nil => cases h; cases ht
      | cons c cs' =>
          rw [tokenizeF] at h
          split_ifs at h with h1 h2 h3 h4 h5 h6 h7 h8
          · cases hrec : tokenizeF f cs' with
            | error e => rw [hrec] at h; cases h
            | ok ts' =>
                rw [hrec] at h
                cases h
                rcases List.mem_cons.mp ht with rfl | hm
                · trivial
                · exact ih cs' ts' hrec t hm
          · cases hrec : tokenizeF f cs' with
            | error e => rw [hrec] at h; cases h
            | ok ts' =>
                rw [hrec] at h
                cases h
                rcases List.mem_cons.mp ht with rfl | hm
                · trivial
                · exact ih cs' ts' hrec t hm
          · cases hrec : tokenizeF f cs' with
            | error e => rw [hrec] at h; cases h
            | ok ts' =>
                rw [hrec] at h
                cases h
                rcases List.mem_cons.mp ht with rfl | hm
                · trivial
                · exact ih cs' ts' hrec t hm
          · cases hrec : tokenizeF f cs' with
            | error e => rw [hrec] at h; cases h
            | ok ts' =>
                rw [hrec] at h
                cases h
                rcases List.mem_cons.mp ht with rfl | hm
                · trivial
                · exact ih cs' ts' hrec t hm
          · cases hls : lexString cs' with
            | error e => rw [hls] at h; cases h
            | ok p =>
                obtain ⟨s, r⟩ := p
                rw [hls] at h
                dsimp only at h
                cases hrec : tokenizeF f r with
                | error e => rw [hrec] at h; cases h
                | ok ts' =>
                    rw [hrec] at h
                    cases h
                    rcases List.mem_cons.mp ht with rfl | hm
                    · trivial
                    · exact ih r ts' hrec t hm
          · exact ih cs' ts h t ht
          · cases hnt : numToken c (collectNum cs').1 with
            | error e => rw [hnt] at h; cases h
            | ok tk =>
                rw [hnt] at h
                dsimp only at h
                cases hrec : tokenizeF f (collectNum cs').2 with
                | error e => rw [hrec] at h; cases h
                | ok ts' =>
                    rw [hrec] at h
                    cases h
                    rcases List.mem_cons.mp ht with rfl | hm
                    · exact numToken_wf c _ t hnt
                    · exact ih _ ts' hrec t hm
          · cases hrec : tokenizeF f (collectIdent cs').2 with
            | error e => rw [hrec] at h; cases h
            | ok ts' =>
                rw [hrec] at h
                cases h
                rcases List.mem_cons.mp ht with rfl | hm
                · -- the identifier token is identifier-shaped
                  rw [tokWF, identShaped]
                  have hdig : c.isDigit = false := by
                    cases hd : c.isDigit with
                    | false => rfl
                    | true => exact absurd (Or.inl hd) h7
                  have hhead : ((c.isAlphanum && !c.isDigit) || c == '_') = true := by
                    rcases h8 with ha | ha
                    · rw [ha, hdig]; rfl
                    · rw [ha]; simp
                  rw [hhead, Bool.true_and, List.all_eq_true]
                  intro x hx
                  rcases collectIdent_chars cs' x hx with ha | ha
                  · rw [ha]; rfl
                  · rw [ha]; simp
                · exact ih _ ts' hrec t hm

/-- Every token the tokenizer produces satisfies the token invariants. -/
theorem tokenize_wf (cs : List Char) (ts : List Token) (h : tokenize cs = .ok ts) :
    ∀ t ∈ ts, tokWF t :=
  tokenizeF_wf cs.length cs ts h

/-! ## Invariants of parser output -/

theorem wfList_append (l : List Value) (v : Value) :
    wfList l → wfValue v → wfList (l ++ [v]) := by
  induction l with
  | nil => intro _ hv; exact ⟨hv, trivial⟩
  | cons a as ih => intro hl hv; exact ⟨hl.1, ih hl.2 hv⟩

theorem parseValueF_ident_other (f : Nat) (s : Str) (t0 : Token) (rest : List Token)
    (hne : t0 ≠ .equal) :
    parseValueF (f + 1) (.identifier s :: t0 :: rest) = .ok (.str s, t0 :: rest) := by
  cases t0 <;> first | rfl | exact absurd rfl hne

theorem parseTopF_ident_other (f : Nat) (acc : Doc) (s : Str) (t0 : Token)
    (rest : List Token) (hne : t0 ≠ .equal) :
    parseTopF (f + 1) acc (.identifier s :: t0 :: rest) =
      .error .expectedEqualAfterIdentifier := by
  cases t0 <;> first | rfl | exact absurd rfl hne

-- Joint fuel induction: any value the parser returns is well-formed, and the
-- leftover tokens are drawn from the (well-formed) input tokens.
theorem parse_wf_aux : ∀ (f : Nat),
    (∀ (ts : List Token) (v : Value) (r : List Token),
      parseValueF f ts = .ok (v, r) → (∀ t ∈ ts, tokWF t) →
      wfValue v ∧ ∀ t ∈ r, tokWF t) ∧
    (∀ (acc : List Value) (ts : List Token) (v : Value) (r : List Token),
      parseArrayF f acc ts = .ok (v, r) → wfList acc → (∀ t ∈ ts, tokWF t) →
      wfValue v ∧ ∀ t ∈ r, tokWF t) := by
  intro f
  induction f with
  | zero =>
      constructor
      · intro ts v r h _
        have h' : (Except.error ParseError.outOfFuel :
            Except ParseError (Value × List Token)) = .ok (v, r) := h
        cases h'
      · intro acc ts v r h _ _
        have h' : (Except.error ParseError.outOfFuel :
            Except ParseError (Value × List Token)) = .ok (v, r) := h
        cases h'
  | succ f ih =>
      constructor
      · intro ts v r h hts
        cases ts with
        | nil =>
            have h' : (Except.error ParseError.indexPanic :
                Except ParseError (Value × List Token)) = .ok (v, r) := h
            cases h'
        | cons t ts' =>
            cases t with
            | openBrace =>
                have h' : parseArrayF f [] ts' = .ok (v, r) := h
                exact ih.2 [] ts' v r h' trivial
                  (fun t ht => hts t (List.mem_cons_of_mem _ ht))
            | closeBrace =>
                have h' : (Except.error ParseError.unexpectedToken :
                    Except ParseError (Value × List Token)) = .ok (v, r) := h
                cases h'
            | comma =>
                have h' : (Except.error ParseError.unexpectedToken :
                    Except ParseError (Value × List Token)) = .ok (v, r) := h
                cases h'
            | equal =>
                have h' : (Except.error ParseError.unexpectedToken :
                    Except ParseError (Value × List Token)) = .ok (v, r) := h
                cases h'
            | stringLiteral s =>
                have h' : (Except.ok ((Value.str s : Value), ts') :
                    Except ParseError (Value × List Token)) = .ok (v, r) := h
                cases h'
                exact ⟨trivial, fun t ht => hts t (List.mem_cons_of_mem _ ht)⟩
            | integerLiteral i =>
                have h' : (Except.ok ((Value.integer i : Value), ts') :
                    Except ParseError (Value × List Token)) = .ok (v, r) := h
                cases h'
                exact ⟨hts _ (List.mem_cons_self _ _),
                  fun t ht => hts t (List.mem_cons_of_mem _ ht)⟩
            | floatLiteral m e =>
                have h' : (Except.ok ((Value.float m e : Value), ts') :
                    Except ParseError (Value × List Token)) = .ok (v, r) := h
                cases h'
                exact ⟨hts _ (List.mem_cons_self _ _),
                  fun t ht => hts t (List.mem_cons_of_mem _ ht)⟩
            | identifier s =>
                cases ts' with
                | nil =>
                    have h' : (Except.error ParseError.indexPanic :
                        Except ParseError (Value × List Token)) = .ok (v, r) := h
                    cases h'
                | cons t0 rest =>
                    by_cases he : t0 = .equal
                    · subst he
                      have h' : (parseValueF f rest).map
                          (fun p => ((Value.dictionary [(s, p.1)] : Value), p.2)) =
                          .ok (v, r) := h
                      cases hv : parseValueF f rest with
                      | error e => rw [hv] at h'; cases h'
                      | ok p =>
                          rw [hv] at h'
                          obtain ⟨w, r'⟩ := p
                          have hrec := ih.1 rest w r' hv (fun t ht =>
                            hts t (List.mem_cons_of_mem _ (List.mem_cons_of_mem _ ht)))
                          have h'' : (Except.ok
                              ((Value.dictionary [(s, w)] : Value), r') :
                              Except ParseError (Value × List Token)) = .ok (v, r) := h'
                          cases h''
                          exact ⟨⟨hts _ (List.mem_cons_self _ _), hrec.1⟩, hrec.2⟩
                    · rw [parseValueF_ident_other f s t0 rest he] at h
                      cases h
                      exact ⟨trivial, fun t ht => hts t (List.mem_cons_of_mem _ ht)⟩
      · intro acc ts v r h hacc hts
        cases ts with
        | nil =>
            have h' : (Except.error ParseError.indexPanic :
                Except ParseError (Value × List Token)) = .ok (v, r) := h
            cases h'
        | cons t ts' =>
            by_cases hcb : t = .closeBrace
            · subst hcb
              have h' : (Except.ok ((Value.array acc : Value), ts') :
                  Except ParseError (Value × List Token)) = .ok (v, r) := h
              cases h'
              exact ⟨hacc, fun t ht => hts t (List.mem_cons_of_mem _ ht)⟩
            · by_cases hcm : t = .comma
              · subst hcm
                exact ih.2 acc ts' v r h hacc
                  (fun t ht => hts t (List.mem_cons_of_mem _ ht))
              · rw [parseArrayF_cons_value f acc t ts' hcb hcm] at h
                cases hv : parseValueF f (t :: ts') with
                | error e => rw [hv] at h; cases h
                | ok p =>
                    rw [hv] at h
                    obtain ⟨w, r'⟩ := p
                    have h' : parseArrayF f (acc ++ [w]) r' = .ok (v, r) := h
                    have hrec := ih.1 (t :: ts') w r' hv hts
                    exact ih.2 (acc ++ [w]) r' v r h'
                      (wfList_append acc w hacc hrec.1) hrec.2

theorem wfDocEntries_setKey (d : Doc) (k : Str) (v : Value)
    (hd : wfDocEntries d) (hv : wfValue v) : wfDocEntries (setKey d k v) := by
  induction d with
  | nil => exact trivial
  | cons p rest ih =>
      obtain ⟨k', v'⟩ := p
      have hd' : identShaped k' = true ∧ wfValue v' ∧ wfDocEntries rest := hd
      rw [setKey]
      by_cases hk : k' = k
      · rw [if_pos hk]
        exact ⟨hk ▸ hd'.1, hv, hd'.2.2⟩
      · rw [if_neg hk]
        exact ⟨hd'.1, hd'.2.1, ih hd'.2.2⟩

theorem map_fst_setKey (d : Doc) (k : Str) (v : Value) :
    (setKey d k v).map Prod.fst = d.map Prod.fst := by
  induction d with
  | nil => rfl
  | cons p rest ih =>
      obtain ⟨k', v'⟩ := p
      rw [setKey]
      by_cases hk : k' = k
      · rw [if_pos hk, List.map_cons, List.map_cons, hk]
      · rw [if_neg hk, List.map_cons, List.map_cons, ih]

theorem getKey_none_not_mem (d : Doc) (k : Str) (h : getKey d k = none) :
    k ∉ d.map Prod.fst := by
  induction d with
  | nil => intro hm; cases hm
  | cons p rest ih =>
      obtain ⟨k', v'⟩ := p
      rw [getKey] at h
      by_cases hk : k' = k
      · rw [if_pos hk] at h; cases h
      · rw [if_neg hk] at h
        intro hm
        rcases List.mem_cons.mp hm with hh | hh
        · exact hk hh.symm
        · exact ih h hh

theorem wfDocEntries_append_one (d : Doc) (k : Str) (v : Value)
    (hd : wfDocEntries d) (hk : identShaped k = true) (hv : wfValue v) :
    wfDocEntries (d ++ [(k, v)]) := by
  induction d with
  | nil => exact ⟨hk, hv, trivial⟩
  | cons p rest ih =>
      obtain ⟨k', v'⟩ := p
      have hd' : identShaped k' = true ∧ wfValue v' ∧ wfDocEntries rest := hd
      exact ⟨hd'.1, hd'.2.1, ih hd'.2.2⟩

theorem insertKey_wfEntries (acc : Doc) (k : Str) (v : Value)
    (hacc : wfDocEntries acc) (hk : identShaped k = true) (hv : wfValue v) :
    wfDocEntries (insertKey acc k v) := by
  rw [insertKey]
  by_cases hg : (getKey acc k).isSome
  · rw [if_pos hg]; exact wfDocEntries_setKey acc k v hacc hv
  · rw [if_neg hg]; exact wfDocEntries_append_one acc k v hacc hk hv

theorem insertKey_nodup (acc : Doc) (k : Str) (v : Value)
    (hnd : (acc.map Prod.fst).Nodup) : ((insertKey acc k v).map Prod.fst).Nodup := by
  rw [insertKey]
  by_cases hg : (getKey acc k).isSome
  · rw [if_pos hg, map_fst_setKey]; exact hnd
  · rw [if_neg hg]
    have hnone : getKey acc k = none := Option.not_isSome_iff_eq_none.mp hg
    have hnm : k ∉ acc.map Prod.fst := getKey_none_not_mem acc k hnone
    rw [List.map_append]
    rw [List.nodup_append]
    refine ⟨hnd, List.nodup_singleton k, ?_⟩
    intro a ha hb
    rcases List.mem_singleton.mp hb with rfl
    exact hnm ha

-- The top-level loop preserves well-formedness and key distinctness of the
-- accumulated document.
theorem parseTop_wf : ∀ (f : Nat) (acc : Doc) (ts : List Token) (doc : Doc),
    parseTopF f acc ts = .ok doc → wfDocEntries acc → (acc.map Prod.fst).Nodup →
    (∀ t ∈ ts, tokWF t) → wfDocEntries doc ∧ (doc.map Prod.fst).Nodup := by
  intro f
  induction f with
  | zero =>
      intro acc ts doc h _ _ _
      have h' : (Except.error ParseError.outOfFuel : Except ParseError Doc) = .ok doc := h
      cases h'
  | succ f ih =>
      intro acc ts doc h hwf hnd hts
      cases ts with
      | nil =>
          have h' : (Except.ok acc : Except ParseError Doc) = .ok doc := h
          cases h'
          exact ⟨hwf, hnd⟩
      | cons t ts' =>
          cases t with
          | identifier s =>
              cases ts' with
              | nil =>
                  have h' : (Except.error ParseError.indexPanic :
                      Except ParseError Doc) = .ok doc := h
                  cases h'
              | cons t0 rest =>
                  by_cases he : t0 = .equal
                  · subst he
                    have h' : (match parseValueF f rest with
                        | .error e => .error e
                        | .ok (w, r) => parseTopF f (insertKey acc s w) r) =
                        Except.ok doc := h
                    cases hv : parseValueF f rest with
                    | error e => rw [hv] at h'; cases h'
                    | ok p =>
                        rw [hv] at h'
                        obtain ⟨w, r⟩ := p
                        have h'' : parseTopF f (insertKey acc s w) r = .ok doc := h'
                        have hrec := (parse_wf_aux f).1 rest w r hv (fun t ht =>
                          hts t (List.mem_cons_of_mem _ (List.mem_cons_of_mem _ ht)))
                        have hid : identShaped s = true := hts _ (List.mem_cons_self _ _)
                        exact ih (insertKey acc s w) r doc h''
                          (insertKey_wfEntries acc s w hwf hid hrec.1)
                          (insertKey_nodup acc s w hnd) hrec.2
                  · rw [parseTopF_ident_other f acc s t0 rest he] at h
                    cases h
          | openBrace =>
              have h' : (Except.error ParseError.unexpectedTokenAtTopLevel :
                  Except ParseError Doc) = .ok doc := h
              cases h'
          | closeBrace =>
              have h' : (Except.error ParseError.unexpectedTokenAtTopLevel :
                  Except ParseError Doc) = .ok doc := h
              cases h'
          | comma =>
              have h' : (Except.error ParseError.unexpectedTokenAtTopLevel :
                  Except ParseError Doc) = .ok doc := h
              cases h'
          | equal =>
              have h' : (Except.error ParseError.unexpectedTokenAtTopLevel :
                  Except ParseError Doc) = .ok doc := h
              cases h'
          | stringLiteral s =>
              have h' : (Except.error ParseError.unexpectedTokenAtTopLevel :
                  Except ParseError Doc) = .ok doc := h
              cases h'
          | integerLiteral i =>
              have h' : (Except.error ParseError.unexpectedTokenAtTopLevel :
                  Except ParseError Doc) = .ok doc := h
              cases h'
          | floatLiteral m e =>
              have h' : (Except.error ParseError.unexpectedTokenAtTopLevel :
                  Except ParseError Doc) = .ok doc := h
              cases h'

/-- Any document the parser returns is well-formed with pairwise-distinct
keys, provided the input tokens carry the tokenizer's invariants. -/
theorem parseTokens_wf (ts : List Token) (doc : Doc) (h : parseTokens ts = .ok doc)
    (hts : ∀ t ∈ ts, tokWF t) : wfDocEntries doc ∧ (doc.map Prod.fst).Nodup :=
  parseTop_wf (2 * ts.length + 1) [] ts doc h trivial List.nodup_nil hts

end RoundTripLemmas

set_option maxRecDepth 8000


/-- C1.  The spec claims that for every Document `D` and string list `L`
with `|L| = |Extract(D)|`, merge followed by extract yields `L`, merge
walking the same string leaves as extract.  The code does not: extract
reads the block wrapper's value as an ARRAY of item dictionaries, while
`replace_secnario` requires that same value to satisfy `is_dictionary()`
and otherwise touches nothing, so on the specification's own example
document merge replaces no leaf at all and fails with "Not all strings in
secnario were used." even though `|L| = |Extract(D)| = 1`. -/
theorem c1_merge_does_not_walk_extract_path :
    extractSecnario exampleDoc = .ok ["hello".data] ∧
    replaceSecnario exampleDoc ["world".data] = .error .notAllStringsUsed :=
  ⟨rfl, rfl⟩

/-- C2.  The spec claims that every parser-producible document survives
the serialize/re-parse round trip.  The code does not provide that: the
document parsed from the text `a = "\""` has a string leaf consisting of
one double-quote character, the serializer emits that leaf without any
escaping, so the serialized text holds three bare quotes in a row and
re-parsing it fails instead of recovering the document.  (A second,
independent failure mode of the source, outside this model's exact-decimal
floats: a float literal above the f64 range parses to infinity, which the
serializer prints as `inf`, a text that re-parsing panics on.) -/
theorem c2_quote_not_roundtripped :
    parseScript ("a = \"\\\"\"").data = .ok quoteDoc ∧
    parseScript (reconstructScript quoteDoc) =
      .error (.parseErr .unexpectedTokenAtTopLevel) :=
  ⟨rfl, rfl⟩

/-- C3.  The spec requires tokenizing the unterminated string literal
`"abc` to fail with `UnterminatedString`.  The tokenizer of the source
instead ends its string-literal loop at end of input and pushes the partial
token: it succeeds with a `StringLiteral("abc")` token. -/
theorem c3_unterminated_string_yields_partial_token :
    tokenize ("\"abc").data = .ok [.stringLiteral "abc".data] :=
  rfl

/-- C4.  The spec requires the parser's identifier lookahead to fail with
`UnexpectedEndOfInput` when no lookahead token exists.  The source indexes
`tokens[*index]` unconditionally: on the token stream of `a = b`, after
consuming the bare identifier `b` in value position the lookahead access is
out of bounds and the program panics (modelled by `indexPanic`). -/
theorem c4_parser_lookahead_panics :
    tokenize ("a = b").data = .ok [.identifier "a".data, .equal, .identifier "b".data] ∧
    parseTokens [.identifier "a".data, .equal, .identifier "b".data] = .error .indexPanic :=
  ⟨rfl, rfl⟩

/-- C5.  The spec claims `Merge(D, L)` fails with `ExhaustedInput` when
`|L| < |Extract(D)|`.  Because `replace_secnario` never reaches the string
leaves (see C1), merging the empty list into the example document (whose
extract list has length 1) consumes nothing and SUCCEEDS, returning the
document unchanged instead of failing. -/
theorem c5_merge_shorter_input_succeeds :
    extractSecnario exampleDoc = .ok ["hello".data] ∧
    replaceSecnario exampleDoc [] = .ok exampleDoc :=
  ⟨rfl, rfl⟩

/-- C8 counterexample.  After pruning the specification's example document,
the block's item array is NOT the single entry `line = 1`: the pruned
remnant of the `text` item survives as an empty dictionary in front of it. -/
theorem c8_pruned_array_keeps_empty_dict :
    parseScript exampleInput = .ok exampleDoc ∧
    getKey (pruneAst exampleDoc) astKey =
      some (.array [.dictionary [("block_00000".data,
        .array [.dictionary [], .dictionary [(lineKey, .integer 1)]])]]) ∧
    ([Value.dictionary [], .dictionary [(lineKey, .integer 1)]] ≠
      [Value.dictionary [(lineKey, .integer 1)]]) :=
  ⟨rfl, rfl, by decide⟩

/-- C8 as amended.  Pruning the document parsed from the example text does
remove the `text` entry, and the only surviving key-value entry in the
block's item array is `line = 1`; but the array itself has two elements,
the empty dictionary left over from the `text` item followed by the
`line = 1` dictionary. -/
theorem c8_prune_example_result :
    parseScript exampleInput = .ok exampleDoc ∧
    pruneAst exampleDoc = examplePruned :=
  ⟨rfl, rfl⟩

/-- Lookup after replacing the value under a present key. -/
theorem getKey_setKey_self (d : List (Str × Value)) (k : Str) (v : Value)
    (h : (getKey d k).isSome) : getKey (setKey d k v) k = some v := by
  induction d with
  | nil => simp [getKey] at h
  | cons p rest ih =>
      obtain ⟨k', v'⟩ := p
      by_cases hk : k' = k
      · subst hk; simp [setKey, getKey]
      · simp only [setKey, getKey, hk, if_false] at h ⊢
        exact ih h

/-- Replacing under the same key twice keeps only the second write. -/
theorem setKey_setKey (d : List (Str × Value)) (k : Str) (v w : Value) :
    setKey (setKey d k v) k w = setKey d k w := by
  induction d with
  | nil => rfl
  | cons p rest ih =>
      obtain ⟨k', v'⟩ := p
      by_cases hk : k' = k
      · subst hk; simp [setKey]
      · simp [setKey, hk, ih]

/-- The item filter of prune is idempotent. -/
theorem pruneItems_idem (l : List Value) : pruneItems (pruneItems l) = pruneItems l := by
  induction l with
  | nil => rfl
  | cons b rest ih =>
      cases b with
      | dictionary d => simp [pruneItems, ih, List.filter_filter]
      | integer i => simpa [pruneItems] using ih
      | float m e => simpa [pruneItems] using ih
      | str s => simpa [pruneItems] using ih
      | array xs => simpa [pruneItems] using ih

/-- One block-wrapper entry is unchanged by a second prune. -/
theorem pruneEntry_idem (p : Str × Value) : pruneEntry (pruneEntry p) = pruneEntry p := by
  obtain ⟨k, v⟩ := p
  cases v with
  | array items => simp [pruneEntry, pruneItems_idem]
  | integer i => rfl
  | float m e => rfl
  | str s => rfl
  | dictionary d => rfl

/-- One block wrapper's entry list is unchanged by a second prune. -/
theorem map_pruneEntry_idem (blocks : List (Str × Value)) :
    (blocks.map pruneEntry).map pruneEntry = blocks.map pruneEntry := by
  induction blocks with
  | nil => rfl
  | cons p rest ih => simp only [List.map_cons, pruneEntry_idem p, ih]

/-- One `ast` element is unchanged by a second prune. -/
theorem pruneBlockValue_idem (b : Value) :
    pruneBlockValue (pruneBlockValue b) = pruneBlockValue b := by
  cases b with
  | dictionary blocks => simp only [pruneBlockValue, map_pruneEntry_idem]
  | integer i => rfl
  | float m e => rfl
  | str s => rfl
  | array xs => rfl

/-- The pruned `ast` array is unchanged by a second prune. -/
theorem map_pruneBlockValue_idem (bs : List Value) :
    (bs.map pruneBlockValue).map pruneBlockValue = bs.map pruneBlockValue := by
  induction bs with
  | nil => rfl
  | cons b rest ih => simp only [List.map_cons, pruneBlockValue_idem b, ih]

/-- Shape of `pruneAst` on a document whose `ast` value is an array. -/
theorem pruneAst_eq_of_getKey_array (doc : Doc) (bs : List Value)
    (h : getKey doc astKey = some (.array bs)) :
    pruneAst doc = setKey doc astKey (.array (bs.map pruneBlockValue)) := by
  unfold pruneAst; rw [h]

/-- C7.  Prune is idempotent: pruning an already pruned document changes
nothing. -/
theorem c7_prune_idempotent (doc : Doc) : pruneAst (pruneAst doc) = pruneAst doc := by
  cases hg : getKey doc astKey with
  | none =>
      have h0 : pruneAst doc = doc := by unfold pruneAst; rw [hg]
      rw [h0, h0]
  | some v =>
      cases v with
      | array bs =>
          have hsome : (getKey doc astKey).isSome := by rw [hg]; rfl
          have h2 : getKey (setKey doc astKey (.array (bs.map pruneBlockValue))) astKey =
              some (.array (bs.map pruneBlockValue)) := getKey_setKey_self _ _ _ hsome
          rw [pruneAst_eq_of_getKey_array doc bs hg,
            pruneAst_eq_of_getKey_array _ _ h2, map_pruneBlockValue_idem, setKey_setKey]
      | integer i =>
          have h0 : pruneAst doc = doc := by unfold pruneAst; rw [hg]
          rw [h0, h0]
      | float m e =>
          have h0 : pruneAst doc = doc := by unfold pruneAst; rw [hg]
          rw [h0, h0]
      | str s =>
          have h0 : pruneAst doc = doc := by unfold pruneAst; rw [hg]
          rw [h0, h0]
      | dictionary d =>
          have h0 : pruneAst doc = doc := by unfold pruneAst; rw [hg]
          rw [h0, h0]

/-- Every survivor of the item-level prune loop is a dictionary filtered
down to the `linknext` and `line` keys. -/
theorem mem_pruneItems (l : List Value) (it : Value) (h : it ∈ pruneItems l) :
    ∃ d : List (Str × Value),
      it = .dictionary (d.filter (fun p => p.1 == linknextKey || p.1 == lineKey)) := by
  induction l with
  | nil => cases h
  | cons b rest ih =>
      cases b with
      | dictionary d =>
          rw [pruneItems] at h
          rcases List.mem_cons.mp h with h' | h'
          · exact ⟨d, h'⟩
          · exact ih h'
      | integer i => exact ih h
      | float m e => exact ih h
      | str s => exact ih h
      | array xs => exact ih h

/-- C6.  Prune key retention: in the pruned document, every item of a
block-wrapper entry's array is a dictionary whose keys all lie in
`{linknext, line}` (in particular every non-dictionary item is gone). -/
theorem c6_prune_key_retention (doc : Doc) (bs : List Value)
    (h1 : getKey (pruneAst doc) astKey = some (.array bs))
    (blocks : List (Str × Value)) (hb : Value.dictionary blocks ∈ bs)
    (p : Str × Value) (hp : p ∈ blocks)
    (items : List Value) (hpi : p.2 = .array items)
    (it : Value) (hit : it ∈ items) :
    ∃ d, it = .dictionary d ∧ ∀ q ∈ d, q.1 = linknextKey ∨ q.1 = lineKey := by
  -- identify the pruned `ast` array
  have hbs : ∃ bs0 : List Value, bs = bs0.map pruneBlockValue := by
    cases hg : getKey doc astKey with
    | none =>
        have h0 : pruneAst doc = doc := by unfold pruneAst; rw [hg]
        rw [h0, hg] at h1
        exact Option.noConfusion h1
    | some v =>
        cases v with
        | array bs0 =>
            have hsome : (getKey doc astKey).isSome := by rw [hg]; rfl
            rw [pruneAst_eq_of_getKey_array doc bs0 hg,
              getKey_setKey_self _ _ _ hsome] at h1
            exact ⟨bs0, (Value.array.inj (Option.some.inj h1)).symm⟩
        | integer i =>
            have h0 : pruneAst doc = doc := by unfold pruneAst; rw [hg]
            rw [h0, hg] at h1
            exact Value.noConfusion (Option.some.inj h1)
        | float m e =>
            have h0 : pruneAst doc = doc := by unfold pruneAst; rw [hg]
            rw [h0, hg] at h1
            exact Value.noConfusion (Option.some.inj h1)
        | str st =>
            have h0 : pruneAst doc = doc := by unfold pruneAst; rw [hg]
            rw [h0, hg] at h1
            exact Value.noConfusion (Option.some.inj h1)
        | dictionary d =>
            have h0 : pruneAst doc = doc := by unfold pruneAst; rw [hg]
            rw [h0, hg] at h1
            exact Value.noConfusion (Option.some.inj h1)
  obtain ⟨bs0, rfl⟩ := hbs
  -- the block wrapper is the prune image of some original element
  obtain ⟨b0, _, hb0⟩ := List.mem_map.mp hb
  have hblocks : ∃ blocks0 : List (Str × Value), blocks = blocks0.map pruneEntry := by
    cases b0 with
    | dictionary blocks0 => exact ⟨blocks0, (Value.dictionary.inj hb0).symm⟩
    | integer i => exact Value.noConfusion hb0
    | float m e => exact Value.noConfusion hb0
    | str st => exact Value.noConfusion hb0
    | array xs => exact Value.noConfusion hb0
  obtain ⟨blocks0, rfl⟩ := hblocks
  -- the entry is the prune image of some original entry
  obtain ⟨p0, _, hp0⟩ := List.mem_map.mp hp
  obtain ⟨k0, v0⟩ := p0
  cases v0 with
  | array items0 =>
      have hpv : Value.array items = Value.array (pruneItems items0) := by
        rw [← hpi, ← hp0]; rfl
      have hI : items = pruneItems items0 := Value.array.inj hpv
      subst hI
      obtain ⟨d0, hd0⟩ := mem_pruneItems items0 it hit
      subst hd0
      refine ⟨_, rfl, ?_⟩
      intro q hq
      have hf := (List.mem_filter.mp hq).2
      simpa using hf
  | integer i =>
      have hpv : p.2 = Value.integer i := by rw [← hp0]; rfl
      rw [hpi] at hpv
      exact Value.noConfusion hpv
  | float m e =>
      have hpv : p.2 = Value.float m e := by rw [← hp0]; rfl
      rw [hpi] at hpv
      exact Value.noConfusion hpv
  | str st =>
      have hpv : p.2 = Value.str st := by rw [← hp0]; rfl
      rw [hpi] at hpv
      exact Value.noConfusion hpv
  | dictionary d =>
      have hpv : p.2 = Value.dictionary d := by rw [← hp0]; rfl
      rw [hpi] at hpv
      exact Value.noConfusion hpv

/-- C6 witness: instantiated on the pruned example document, at the block
entry `block_00000` and its surviving `line = 1` item. -/
theorem c6_prune_key_retention_witness :
    getKey (pruneAst exampleDoc) astKey =
      some (.array [.dictionary [("block_00000".data,
        .array [.dictionary [], .dictionary [(lineKey, .integer 1)]])]]) ∧
    ∃ d, Value.dictionary [(lineKey, Value.integer 1)] = Value.dictionary d ∧
      ∀ q ∈ d, q.1 = linknextKey ∨ q.1 = lineKey :=
  ⟨rfl,
   c6_prune_key_retention exampleDoc _ rfl
     [("block_00000".data, .array [.dictionary [], .dictionary [(lineKey, .integer 1)]])]
     (by decide)
     ("block_00000".data, .array [.dictionary [], .dictionary [(lineKey, .integer 1)]])
     (by decide)
     [.dictionary [], .dictionary [(lineKey, .integer 1)]] rfl
     (.dictionary [(lineKey, .integer 1)]) (by decide)⟩

/-- The per-block extract loop aborts with "block is not a dict" as soon as
the `ast` array holds any non-dictionary element. -/
theorem extractBlocks_nondict (bs : List Value) (x : Value)
    (hx : x ∈ bs) (hd : isDictionary x = false) :
    extractBlocks bs = .error .blockNotDict := by
  induction bs with
  | nil => cases hx
  | cons b rest ih =>
      cases b with
      | dictionary blocks =>
          rcases List.mem_cons.mp hx with h | h
          · subst h; simp [isDictionary] at hd
          · show (extractBlocks rest).map _ = _
            rw [ih h]
            rfl
      | integer i => rfl
      | float m e => rfl
      | str s => rfl
      | array xs => rfl

/-- C9.  Extract fails with "block is not a dict" whenever any element of
the top-level `ast` array is not a dictionary: one bad element aborts the
entire extraction. -/
theorem c9_extract_nondict_block_aborts (doc : Doc) (bs : List Value) (x : Value)
    (h1 : getKey doc astKey = some (.array bs)) (h2 : x ∈ bs)
    (h3 : isDictionary x = false) :
    extractSecnario doc = .error .blockNotDict := by
  unfold extractSecnario
  rw [h1]
  exact extractBlocks_nondict bs x h2 h3

/-- C9 witness: an `ast` array holding a bare integer aborts extraction. -/
theorem c9_extract_nondict_block_aborts_witness :
    getKey [(astKey, Value.array [.integer 0])] astKey = some (.array [.integer 0]) ∧
    (Value.integer 0) ∈ [Value.integer 0] ∧
    isDictionary (.integer 0) = false ∧
    extractSecnario [(astKey, Value.array [.integer 0])] = .error .blockNotDict :=
  ⟨rfl, by simp, rfl,
   c9_extract_nondict_block_aborts _ [.integer 0] (.integer 0) rfl (by simp) rfl⟩

/-- C10.  Prune is total by construction, and on a document whose `ast` key
is absent or not an array it changes nothing. -/
theorem c10_prune_degenerate_identity (doc : Doc)
    (h : ∀ bs, getKey doc astKey ≠ some (.array bs)) :
    pruneAst doc = doc := by
  unfold pruneAst
  cases hg : getKey doc astKey with
  | none => rfl
  | some v =>
      cases v with
      | array bs => exact absurd hg (h bs)
      | integer i => rfl
      | float m e => rfl
      | str s => rfl
      | dictionary d => rfl

/-- C10 witness: a document without an `ast` key is returned unchanged. -/
theorem c10_prune_degenerate_identity_witness :
    pruneAst [("x".data, Value.integer 1)] = [("x".data, Value.integer 1)] :=
  c10_prune_degenerate_identity _ (fun _ h => Option.noConfusion h)

end ArtemisAst
